import Mathlib

/-!
# Verse-selection engine of `script.js`

A shallow embedding of the chat widget's selection engine: corpus
construction, the shuffled fallback deck, the context builder, the ranker,
the recency guard and the orchestration of a reply request.

Conventions of the embedding.

* JavaScript arrays are `List`s; the closure variables of `typeset` are the
  fields of `Session`, and every function that touches them takes the session
  and returns the new one.
* `undefined` is `none`.
* `Math.random()` is a stream of fractions in `[0, 1)`; a function that calls
  it takes the stream and returns what is left of it.
* Numbers of the embedding vectors live in an arbitrary linearly ordered ring
  (exact arithmetic); `NaN` is `none`.
* DOM effects (`typeset` elements, scrolling, the typing indicator, status
  text, timers) are not part of the state.
-/

namespace LyricsChat

/-! ## Random source -/

/-- One result of `Math.random()`: the fraction `num / den`, with
`0 ≤ num / den < 1`. -/
structure Rand where
  num : Nat
  den : Nat
  lt : num < den

/-- The successive results of `Math.random()`. -/
abbrev RandomSource := Nat → Rand

/-- The source after one call of `Math.random()`. -/
def RandomSource.next (rnd : RandomSource) : RandomSource := fun n => rnd (n + 1)

/-- JS `Math.floor(r * n)` for a result `r` of `Math.random()`. -/
def Rand.floorMul (r : Rand) (n : Nat) : Nat := r.num * n / r.den

/-! ## `shuffle`, `resetRandomDeck`, `drawRandomVerse` -/

/-- The destructuring swap `[copy[i], copy[j]] = [copy[j], copy[i]]`: the
right-hand side is read first, then `copy[i]` and `copy[j]` are written in
that order. Both positions are inside the array wherever `shuffle` uses it;
outside, the list is returned as it is. -/
def swap {β : Type} (copy : List β) (i j : Nat) : List β :=
  match copy[i]?, copy[j]? with
  | some ci, some cj => (copy.set i cj).set j ci
  | _, _ => copy

/-- The loop `for (let i = ...; i > 0; i--)` of `shuffle`, entered with the
loop variable equal to `i`. -/
def shuffleLoop {β : Type} : Nat → RandomSource → List β → List β × RandomSource
  | 0, rnd, copy => (copy, rnd)
  | i + 1, rnd, copy =>
    let j := (rnd 0).floorMul (i + 1 + 1)
    shuffleLoop i rnd.next (swap copy (i + 1) j)

/-- JS `shuffle(array)`: Fisher-Yates on a copy of the array. -/
def shuffle {β : Type} (array : List β) (rnd : RandomSource) : List β × RandomSource :=
  shuffleLoop (array.length - 1) rnd array

/-! ## Strings: `trim`, `join`, `split` -/

/-- The code points `String.prototype.trim` strips: ECMAScript WhiteSpace
(TAB, VT, FF, SP, NBSP, ZWNBSP and the Unicode space separators) and
LineTerminator (LF, CR, LS, PS). -/
def isTrimChar (c : Char) : Bool :=
  let n := c.toNat
  n == 0x09 || n == 0x0A || n == 0x0B || n == 0x0C || n == 0x0D || n == 0x20 ||
  n == 0xA0 || n == 0x1680 || (0x2000 ≤ n && n ≤ 0x200A) || n == 0x2028 ||
  n == 0x2029 || n == 0x202F || n == 0x205F || n == 0x3000 || n == 0xFEFF

/-- JS `trim` on the characters of a string. -/
def trimChars (cs : List Char) : List Char :=
  ((cs.dropWhile isTrimChar).reverse.dropWhile isTrimChar).reverse

/-- JS `String.prototype.trim`. -/
def jsTrim (s : String) : String := ⟨trimChars s.data⟩

/-- JS `Array.prototype.join(sep)` on an array of strings. -/
def join : List String → String → String
  | [], _ => ""
  | [x], _ => x
  | x :: y :: rest, sep => x ++ sep ++ join (y :: rest) sep

/-- JS `text.split(/\r?\n/)` on the characters of the text: a line ends at LF,
and a CR directly before that LF belongs to the separator. -/
def splitLines : List Char → List (List Char)
  | [] => [[]]
  | c :: rest =>
    if c = Char.ofNat 0x0A then [] :: splitLines rest
    else if c = Char.ofNat 0x0D ∧ rest.head? = some (Char.ofNat 0x0A) then splitLines rest
    else
      match splitLines rest with
      | [] => [[c]]
      | line :: lines => (c :: line) :: lines

/-- Template-literal rendering of a string-or-`undefined` value. -/
def renderText : Option String → String
  | some t => t
  | none => "undefined"

/-! ## Corpus construction: `dedupePreserveOrder`, `loadVerses` -/

/-- The `for (const item of array)` loop of `dedupePreserveOrder`; `seen` is
the `Set` (in insertion order), `out` the output array. -/
def dedupeLoop : List String → List String → List String → List String
  | [], _, out => out
  | item :: rest, seen, out =>
    let key := jsTrim item
    if key = "" ∨ key ∈ seen then dedupeLoop rest seen out
    else dedupeLoop rest (seen ++ [key]) (out ++ [item])

/-- JS `dedupePreserveOrder(array)`. -/
def dedupePreserveOrder (array : List String) : List String :=
  dedupeLoop array [] []

/-- JS `loadVerses()`. The argument is the outcome of fetching `verses.txt`:
`none` when the fetch rejects, the response is not ok or its body cannot be
read (the function throws), otherwise the body text. -/
def loadVerses (response : Option String) : Option (List String) :=
  response.map fun text =>
    (((splitLines text.data).map fun line => jsTrim ⟨line⟩).filter fun line => line ≠ "")

/-! ## Session state -/

/-- One entry of `conversation`: `{ text, sender }`. -/
structure Turn where
  text : Option String
  sender : String
  deriving DecidableEq

/-- The closure variables of `typeset`. `embedder` records whether the
variable holds a pipeline (`true`) or `null` (`false`). -/
structure Session (α : Type) where
  OPTIONS : List String
  randomDeck : List String
  conversation : List Turn
  embedder : Bool
  verseEmbeddings : List (List α)
  modelReady : Bool
  recentVerseIndexes : List Nat
  deriving DecidableEq

/-- JS `DEFAULT_VERSES`. -/
def DEFAULT_VERSES : List String := ["Sarai come ossigeno."]

/-- JS `RECENT_LIMIT`. -/
def RECENT_LIMIT : Nat := 3

/-- The closure variables as `typeset` initialises them. -/
def initialSession (α : Type) : Session α where
  OPTIONS := DEFAULT_VERSES
  randomDeck := []
  conversation := []
  embedder := false
  verseEmbeddings := []
  modelReady := false
  recentVerseIndexes := []

/-- An exception thrown inside a reply or the warm-up. -/
inductive JsError where
  | typeError
  | embedError
  deriving DecidableEq

/-- The outcome of one call of the embedder: the `data` of the tensor, or
`none` when the call rejects. -/
abbrev EmbedOutcome (α : Type) := Option (List α)

section Engine

variable {α : Type}

/-- JS `resetRandomDeck()`. -/
def resetRandomDeck (s : Session α) (rnd : RandomSource) : Session α × RandomSource :=
  let r := shuffle s.OPTIONS rnd
  ({ s with randomDeck := r.1 }, r.2)

/-- JS `drawRandomVerse()`: the result of `randomDeck.pop()`, `none` for
`undefined`. -/
def drawRandomVerse (s : Session α) (rnd : RandomSource) :
    Option String × Session α × RandomSource :=
  let r := if s.randomDeck.length = 0 then resetRandomDeck s rnd else (s, rnd)
  (r.1.randomDeck.getLast?, { r.1 with randomDeck := r.1.randomDeck.dropLast }, r.2)

/-- A run of `n` calls of `drawRandomVerse()` in a row, with the results in call
order. -/
def drawMany : Nat → Session α → RandomSource → List (Option String) × Session α × RandomSource
  | 0, s, rnd => ([], s, rnd)
  | n + 1, s, rnd =>
    let r := drawRandomVerse s rnd
    let rs := drawMany n r.2.1 r.2.2
    (r.1 :: rs.1, rs.2)

/-- JS `addMessage(text, sender)`: the push onto `conversation`. -/
def addMessage (s : Session α) (text : Option String) (sender : String) : Session α :=
  { s with conversation := s.conversation ++ [{ text := text, sender := sender }] }

/-- JS `array.slice(-n)`. -/
def sliceLast {β : Type} (array : List β) (n : Nat) : List β :=
  array.drop (array.length - n)

/-- JS `buildContext(promptText)`, with the session as the call leaves it. -/
def buildContext (s : Session α) (promptText : String) : String × Session α :=
  let historyContext := (sliceLast s.conversation 6).map fun entry =>
    let label := if entry.sender = "user" then "Utente" else "Bot"
    label ++ ": " ++ renderText entry.text
  let historyContext := historyContext ++ ["Utente: " ++ promptText]
  (join historyContext "\n", s)

/-- JS `addToRecent(index)`. -/
def addToRecent (s : Session α) (index : Nat) : Session α :=
  let pushed := s.recentVerseIndexes ++ [index]
  { s with recentVerseIndexes := if pushed.length > RECENT_LIMIT then pushed.tail else pushed }

/-- One element of `ranked`: `{ index, score }`; a `NaN` score is `none`. -/
structure Candidate (α : Type) where
  index : Nat
  score : Option α
  deriving DecidableEq

/-- JS `pickFromRanked(ranked)`. With an empty `ranked` the read of
`fallback.index` throws a `TypeError`. -/
def pickFromRanked (s : Session α) (ranked : List (Candidate α)) :
    Except JsError Nat × Session α :=
  match ranked.find? fun candidate => !s.recentVerseIndexes.contains candidate.index with
  | some candidate => (.ok candidate.index, addToRecent s candidate.index)
  | none =>
    match ranked.head? with
    | some fallback => (.ok fallback.index, addToRecent s fallback.index)
    | none => (.error .typeError, s)

/-- JS `Array.prototype.map` with a callback that takes the element and its
index; `k` is the index of the first element. -/
def arrayMapFrom {β γ : Type} (f : β → Nat → γ) : Nat → List β → List γ
  | _, [] => []
  | k, x :: xs => f x k :: arrayMapFrom f (k + 1) xs

/-- JS `array.map((element, index) => ...)`. -/
def arrayMap {β γ : Type} (f : β → Nat → γ) (array : List β) : List γ :=
  arrayMapFrom f 0 array

variable [LinearOrderedRing α]

/-- JS `cosineSimilarity(normalizedA, normalizedB)`: the running sum over the
positions of `normalizedA`. A position missing from `normalizedB` reads
`undefined`, and the score is `NaN` from there on. -/
def cosineSimilarity (normalizedA normalizedB : List α) : Option α :=
  (List.range normalizedA.length).foldl
    (fun score i => do
      let acc ← score
      let a ← normalizedA[i]?
      let b ← normalizedB[i]?
      pure (acc + a * b))
    (some 0)

/-- The comparison function `(a, b) => b.score - a.score`. -/
def compareScore (a b : Candidate α) : Option α := do
  let x ← b.score
  let y ← a.score
  pure (x - y)

/-- ECMAScript `SortCompare`: a `NaN` result of the comparison function
counts as `0`. -/
def sortCompare {β : Type} (comparefn : β → β → Option α) (x y : β) : α :=
  (comparefn x y).getD 0

/-- Insertion of `x` in front of a sorted list whose elements all followed
`x` in the array: `x` moves behind exactly the leading elements that the
comparison function puts before it. -/
def insertStable {β : Type} (comparefn : β → β → Option α) (x : β) : List β → List β
  | [] => [x]
  | y :: ys =>
    if 0 < sortCompare comparefn x y then y :: insertStable comparefn x ys
    else x :: y :: ys

/-- JS `Array.prototype.sort(comparefn)`. ECMAScript requires the sort to be
stable, so with a consistent comparison function the result is the one
stable arrangement; it is computed here by insertion from the right. -/
def arraySort {β : Type} (comparefn : β → β → Option α) : List β → List β
  | [] => []
  | x :: xs => insertStable comparefn x (arraySort comparefn xs)

/-- The `ranked` array of `chooseVerse`: every embedding vector paired with
its index and score, sorted by `compareScore`. -/
def rankVerses (data : List α) (verseEmbeddings : List (List α)) : List (Candidate α) :=
  arraySort compareScore
    (arrayMap (fun vector index => { index := index, score := cosineSimilarity data vector })
      verseEmbeddings)

/-- The test `modelReady && embedder && verseEmbeddings.length === OPTIONS.length`
whose negation opens `chooseVerse`. -/
def semanticReady (s : Session α) : Bool :=
  s.modelReady && s.embedder && s.verseEmbeddings.length == s.OPTIONS.length

/-- The part of `chooseVerse` after `await embedder(...)` has resolved with
`data`: rank, pick, and read `OPTIONS[selectedIndex]`. -/
def chooseVerseResume (s : Session α) (data : List α) :
    Except JsError (Option String) × Session α :=
  let ranked := rankVerses data s.verseEmbeddings
  match pickFromRanked s ranked with
  | (.ok selectedIndex, s1) => (.ok s1.OPTIONS[selectedIndex]?, s1)
  | (.error e, s1) => (.error e, s1)

/-- JS `chooseVerse(promptText)`, run without interruption; `embed` is what the
embedder answers to the text it is called with. -/
def chooseVerse (s : Session α) (promptText : String) (embed : String → EmbedOutcome α)
    (rnd : RandomSource) : Except JsError (Option String) × Session α × RandomSource :=
  if !s.modelReady || !s.embedder || s.verseEmbeddings.length != s.OPTIONS.length then
    let r := drawRandomVerse s rnd
    (.ok r.1, r.2)
  else
    let c := buildContext s promptText
    match embed c.1 with
    | none => (.error .embedError, c.2, rnd)
    | some data =>
      let r := chooseVerseResume c.2 data
      (r.1, r.2, rnd)

/-- JS `reply(promptText)`: one `Math.random()` for the delay, then
`chooseVerse` and the bot message. -/
def reply (s : Session α) (promptText : String) (embed : String → EmbedOutcome α)
    (rnd : RandomSource) : Except JsError (Option String) × Session α × RandomSource :=
  match chooseVerse s promptText embed rnd.next with
  | (.ok verse, s1, rnd1) => (.ok verse, addMessage s1 verse "bot", rnd1)
  | (.error e, s1, rnd1) => (.error e, s1, rnd1)

/-- The rejection handler of the submit listener:
`addMessage(drawRandomVerse(), 'bot')`. -/
def replyCatch (s : Session α) (rnd : RandomSource) :
    Option String × Session α × RandomSource :=
  let r := drawRandomVerse s rnd
  (r.1, addMessage r.2.1 r.1 "bot", r.2.2)

/-- The submit listener for the input value `inputValue`, run to the end of
the reply. The first component is the text of the bot message it adds,
`none` when the listener returns without a reply (blank input). -/
def submitHandler (s : Session α) (inputValue : String) (embed : String → EmbedOutcome α)
    (rnd : RandomSource) : Option (Option String) × Session α × RandomSource :=
  let text := jsTrim inputValue
  if text = "" then (none, s, rnd)
  else
    match reply (addMessage s (some text) "user") text embed rnd with
    | (.ok verse, s1, rnd1) => (some verse, s1, rnd1)
    | (.error _, s1, rnd1) =>
      let r := replyCatch s1 rnd1
      (some r.1, r.2)

/-- The indexing loop of `warmupEmbeddings` over the verses still to embed;
`i` is the loop variable and `embed i` the embedder's answer in that
iteration. -/
def warmupLoop (embed : Nat → String → EmbedOutcome α) :
    List String → Nat → Session α → Except JsError Unit × Session α
  | [], _, s => (.ok (), s)
  | verse :: rest, i, s =>
    match embed i verse with
    | none => (.error .embedError, s)
    | some data =>
      warmupLoop embed rest (i + 1) { s with verseEmbeddings := s.verseEmbeddings ++ [data] }

/-- JS `warmupEmbeddings()`; `pipelineOk` tells whether `pipeline(...)` resolves. -/
def warmupEmbeddings (s : Session α) (pipelineOk : Bool)
    (embed : Nat → String → EmbedOutcome α) : Session α :=
  if pipelineOk then
    let s1 := { s with embedder := true }
    let s2 := { s1 with verseEmbeddings := [] }
    match warmupLoop embed s2.OPTIONS 0 s2 with
    | (.ok _, s3) => { s3 with modelReady := true }
    | (.error _, s3) => { s3 with modelReady := false }
  else { s with modelReady := false }

/-- JS `bootstrap()`; `response` is the outcome of the fetch in `loadVerses`. -/
def bootstrap (s : Session α) (response : Option String) (pipelineOk : Bool)
    (embed : Nat → String → EmbedOutcome α) (rnd : RandomSource) : Session α × RandomSource :=
  let s1 :=
    match loadVerses response with
    | some fileVerses =>
      let unique := dedupePreserveOrder fileVerses
      if unique.length ≠ 0 then { s with OPTIONS := unique } else s
    | none => s
  let r := resetRandomDeck s1 rnd
  (warmupEmbeddings r.1 pipelineOk embed, r.2)

/-- The sessions the widget can be in once `bootstrap` has finished: what
`bootstrap` leaves, and from there any interleaving of the pieces of reply
requests that run without interruption: a message added to the
conversation, a draw from the deck, and the ranking and pick that follow a
resolved embedding call of a request that found semantic mode ready.
Requests handled while `bootstrap` is still running only add messages and
draw from the deck; these touch fields the warm-up does not, so their
effect is that of the same steps taken after `bootstrap`. Readiness does
not change along the steps (`semanticReady_stable`), which is why the pick
may ask for it at the time the embedding call resolves. -/
inductive Reachable : Session α → Prop
  | boot (response : Option String) (pipelineOk : Bool)
      (embed : Nat → String → EmbedOutcome α) (rnd : RandomSource) :
      Reachable (bootstrap (initialSession α) response pipelineOk embed rnd).1
  | message (s : Session α) (text : Option String) (sender : String) :
      Reachable s → Reachable (addMessage s text sender)
  | draw (s : Session α) (rnd : RandomSource) :
      Reachable s → Reachable (drawRandomVerse s rnd).2.1
  | pick (s : Session α) (data : List α) :
      Reachable s → semanticReady s = true → Reachable (chooseVerseResume s data).2

end Engine

/-! ## Reference descriptions used in the statements -/

/-- The dot product of two vectors, position by position. -/
def dotProduct {α : Type} [LinearOrderedRing α] (q v : List α) : α :=
  (List.zipWith (fun a b => a * b) q v).sum

/-- Candidate `a` may stand before candidate `b` in a ranking by
non-increasing score: both scores are numbers and `b`'s is not the greater. -/
def ScoreGe {α : Type} [LinearOrderedRing α] (a b : Candidate α) : Prop :=
  ∃ x y, a.score = some x ∧ b.score = some y ∧ y ≤ x

/-- The items of a list that `dedupePreserveOrder` is specified to keep,
given the items `earlier` that stand before the list: an item is kept when
its trimmed value is non-empty and differs from the trimmed value of every
earlier item. -/
def itemsWithFreshKey (earlier : List String) : List String → List String
  | [] => []
  | item :: rest =>
    if jsTrim item ≠ "" ∧ ∀ e ∈ earlier, jsTrim e ≠ jsTrim item then
      item :: itemsWithFreshKey (earlier ++ [item]) rest
    else itemsWithFreshKey (earlier ++ [item]) rest

/-- A turn as `buildContext` is specified to render it. -/
def renderTurn (turn : Turn) : String :=
  (if turn.sender = "user" then "Utente: " else "Bot: ") ++ renderText turn.text

/-- What every session reachable after `bootstrap` satisfies: the corpus is
non-empty and the deck holds corpus entries only. -/
def CorpusInv {α : Type} (s : Session α) : Prop :=
  s.OPTIONS ≠ [] ∧ ∀ v ∈ s.randomDeck, v ∈ s.OPTIONS

/-! ## Concrete sessions and sources used in the examples -/

/-- The random source whose every result is `1/2`. -/
def halfSource : RandomSource := fun _ => ⟨1, 2, by decide⟩

/-- The session `bootstrap` leaves for the corpus file `A`, `B`, `C` when the
embedding pipeline fails to load. -/
def abcSession : Session Int :=
  (bootstrap (initialSession Int) (some "A\nB\nC") false (fun _ _ => none) halfSource).1

/-- A session over a four-verse corpus with the given recency window. -/
def windowSession (window : List Nat) : Session Int where
  OPTIONS := ["a", "b", "c", "d"]
  randomDeck := []
  conversation := []
  embedder := true
  verseEmbeddings := [[1, 0], [0, 1], [1, 1], [0, 0]]
  modelReady := true
  recentVerseIndexes := window

/-- The session `bootstrap` leaves for the corpus file `A`, `B`, `C` when the
pipeline loads and the embedder answers verse number `i` with `[i, 1]`. -/
def readySession : Session Int :=
  (bootstrap (initialSession Int) (some "A\nB\nC") true (fun i _ => some [(i : Int), 1])
    halfSource).1

/-! ## Reference descriptions: corpus construction -/

/-- A list of strings without its later duplicates: an item is kept when it
is not among the items `earlier` that stand before it. -/
def keepFirstOccurrences (earlier : List String) : List String → List String
  | [] => []
  | item :: rest =>
    if item ∈ earlier then keepFirstOccurrences (earlier ++ [item]) rest
    else item :: keepFirstOccurrences (earlier ++ [item]) rest

/-- A text without every CR that stands directly before an LF, so that each
CRLF has become a plain LF. -/
def stripCrBeforeLf : List Char → List Char
  | [] => []
  | c :: rest =>
    if c = Char.ofNat 0x0D ∧ rest.head? = some (Char.ofNat 0x0A) then stripCrBeforeLf rest
    else c :: stripCrBeforeLf rest

/-! ## Sessions after a given session, runs of picks, choice sequences -/

/-- The sessions that can follow the session `s0`: `s0` itself, and from
there any interleaving of the steps of `Reachable`: a message added to the
conversation, a draw from the deck, and the ranking and pick of a request
that found semantic mode ready. -/
inductive Later {α : Type} [LinearOrderedRing α] (s0 : Session α) : Session α → Prop
  | start : Later s0 s0
  | message (s : Session α) (text : Option String) (sender : String) :
      Later s0 s → Later s0 (addMessage s text sender)
  | draw (s : Session α) (rnd : RandomSource) :
      Later s0 s → Later s0 (drawRandomVerse s rnd).2.1
  | pick (s : Session α) (data : List α) :
      Later s0 s → semanticReady s = true → Later s0 (chooseVerseResume s data).2

/-- Successive calls of `pickFromRanked`, one per ranking, with the indices
they return in call order; a call that throws returns nothing. -/
def pickMany {α : Type} : List (List (Candidate α)) → Session α → List Nat × Session α
  | [], s => ([], s)
  | ranked :: rest, s =>
    match pickFromRanked s ranked with
    | (.ok index, s1) => (index :: (pickMany rest s1).1, (pickMany rest s1).2)
    | (.error _, s1) => pickMany rest s1

/-- The swap positions `j` that the loop of `shuffle`, entered with the loop
variable equal to `i`, computes from the random source, in loop order. -/
def shuffleChoices : Nat → RandomSource → List Nat
  | 0, _ => []
  | i + 1, rnd => (rnd 0).floorMul (i + 1 + 1) :: shuffleChoices i rnd.next

/-- The loop of `shuffle`, entered with the loop variable equal to `i`, run
with the given swap positions instead of the random source. -/
def shuffleBy {β : Type} : Nat → List Nat → List β → List β
  | i + 1, j :: js, copy => shuffleBy i js (swap copy (i + 1) j)
  | _, _, copy => copy

/-- A choice sequence for the loop entered with the loop variable equal to
`i`: one swap position per iteration, the position chosen when the loop
variable is `k` being one of `0..k`. -/
def ValidChoices : Nat → List Nat → Prop
  | 0, js => js = []
  | i + 1, js => ∃ j rest, js = j :: rest ∧ j ≤ i + 1 ∧ ValidChoices i rest

/-- The random source whose every result is `0`. -/
def zeroSource : RandomSource := fun _ => ⟨0, 1, by decide⟩

/-- The session `bootstrap` leaves for the corpus file `A`, `B` when the
embedding pipeline fails to load. -/
def abSession : Session Int :=
  (bootstrap (initialSession Int) (some "A\nB") false (fun _ _ => none) halfSource).1

/-- No value of the list stands again within the three places after it:
any four consecutive entries are pairwise different. -/
def NoRepeatWithinThree (l : List Nat) : Prop :=
  ∀ a b x y, a < b → b ≤ a + 3 → l[a]? = some x → l[b]? = some y → x ≠ y

/-- The query string a reply request for `text` is specified to embed, given
the conversation before the request: the renderings of the last five turns
(fewer when the log is shorter), then the line for the new user message
twice, joined by newlines. -/
def expectedQuery (conversation : List Turn) (text : String) : String :=
  "\n".intercalate
    ((conversation.drop (conversation.length - 5)).map renderTurn ++
      ["Utente: " ++ text, "Utente: " ++ text])

/-! ## Helper lemmas: `shuffle` -/

theorem Rand.floorMul_lt (r : Rand) (n : Nat) (hn : 0 < n) : r.floorMul n < n := by
  unfold Rand.floorMul
  have hd : 0 < r.den := Nat.lt_of_le_of_lt (Nat.zero_le _) r.lt
  rw [Nat.div_lt_iff_lt_mul hd, Nat.mul_comm n]
  exact Nat.mul_lt_mul_of_pos_right r.lt hn

theorem swap_perm {β : Type} (copy : List β) (i j : Nat) : (swap copy i j).Perm copy := by
  classical
  unfold swap
  cases hi : copy[i]? with
  | none => simp
  | some ci =>
    cases hj : copy[j]? with
    | none => simp
    | some cj =>
      simp only
      obtain ⟨hi', rfl⟩ := List.getElem?_eq_some_iff.mp hi
      obtain ⟨hj', rfl⟩ := List.getElem?_eq_some_iff.mp hj
      rw [List.perm_iff_count]
      intro a
      rw [List.count_set _ _ _ _ (by simpa using hj'), List.count_set _ _ _ _ hi']
      by_cases hij : i = j
      · subst hij
        simp only [List.getElem_set_self]
        have h1 : 0 < copy.count copy[i] := List.count_pos_iff.mpr (List.getElem_mem hi')
        by_cases e1 : copy[i] = a <;> simp [e1]
        subst e1
        omega
      · rw [List.getElem_set_ne (by omega)]
        have h1 : 0 < copy.count copy[i] := List.count_pos_iff.mpr (List.getElem_mem hi')
        have h2 : 0 < copy.count copy[j] := List.count_pos_iff.mpr (List.getElem_mem hj')
        by_cases e1 : copy[i] = a <;> by_cases e2 : copy[j] = a <;> simp [e1, e2] <;>
          first
            | omega
            | (subst e1; omega)

theorem shuffleLoop_perm {β : Type} (i : Nat) (rnd : RandomSource) (copy : List β) :
    (shuffleLoop i rnd copy).1.Perm copy := by
  induction i generalizing rnd copy with
  | zero => simp [shuffleLoop]
  | succ i ih =>
    simp only [shuffleLoop]
    exact (ih _ _).trans (swap_perm _ _ _)

theorem shuffle_perm {β : Type} (array : List β) (rnd : RandomSource) :
    (shuffle array rnd).1.Perm array :=
  shuffleLoop_perm _ _ _

/-! ## Helper lemmas: the fallback deck -/

section Deck

variable {α : Type}

theorem drawRandomVerse_of_ne_nil (s : Session α) (rnd : RandomSource)
    (h : s.randomDeck ≠ []) :
    drawRandomVerse s rnd =
      (s.randomDeck.getLast?, { s with randomDeck := s.randomDeck.dropLast }, rnd) := by
  have hl : s.randomDeck.length ≠ 0 := by simpa using h
  simp [drawRandomVerse, hl]

theorem drawRandomVerse_of_nil (s : Session α) (rnd : RandomSource)
    (h : s.randomDeck = []) :
    drawRandomVerse s rnd =
      ((shuffle s.OPTIONS rnd).1.getLast?,
        { s with randomDeck := (shuffle s.OPTIONS rnd).1.dropLast }, (shuffle s.OPTIONS rnd).2) := by
  simp [drawRandomVerse, resetRandomDeck, h]

/-- Drawing as many times as the deck has cards returns the deck from its
end to its start, without a reshuffle. -/
theorem drawMany_deck (n : Nat) (s : Session α) (rnd : RandomSource)
    (h : s.randomDeck.length = n) :
    drawMany n s rnd = (s.randomDeck.reverse.map some, { s with randomDeck := [] }, rnd) := by
  induction n generalizing s with
  | zero =>
    have h0 : s.randomDeck = [] := List.length_eq_zero.mp h
    cases s
    simp_all [drawMany]
  | succ n ih =>
    have hne : s.randomDeck ≠ [] := by
      intro h0
      simp [h0] at h
    have hlen : ({ s with randomDeck := s.randomDeck.dropLast } : Session α).randomDeck.length = n := by
      simp [h]
    simp only [drawMany, drawRandomVerse_of_ne_nil s rnd hne, ih _ hlen]
    have hd : s.randomDeck = s.randomDeck.dropLast ++ [s.randomDeck.getLast hne] :=
      (List.dropLast_append_getLast hne).symm
    refine Prod.ext ?_ rfl
    simp only
    conv_rhs => rw [hd]
    simp [List.getLast?_eq_getLast _ hne]

/-- After a reshuffle on an empty deck the draws go on as from the fresh
deck. -/
theorem drawMany_of_nil (n : Nat) (s : Session α) (rnd : RandomSource)
    (h : s.randomDeck = []) (hn : s.OPTIONS.length = n) :
    drawMany n s rnd =
      ((shuffle s.OPTIONS rnd).1.reverse.map some, { s with randomDeck := [] },
        (shuffle s.OPTIONS rnd).2) := by
  cases n with
  | zero =>
    have h0 : s.OPTIONS = [] := List.length_eq_zero.mp hn
    cases s
    simp_all [drawMany, shuffle, shuffleLoop]
  | succ n =>
    have hp : (shuffle s.OPTIONS rnd).1.length = n + 1 := by
      rw [(shuffle_perm s.OPTIONS rnd).length_eq, hn]
    have hne : (shuffle s.OPTIONS rnd).1 ≠ [] := by
      intro h0
      simp [h0] at hp
    have key : drawRandomVerse s rnd =
        drawRandomVerse { s with randomDeck := (shuffle s.OPTIONS rnd).1 } (shuffle s.OPTIONS rnd).2 := by
      rw [drawRandomVerse_of_nil s rnd h, drawRandomVerse_of_ne_nil _ _ hne]
    have hfull := drawMany_deck (n + 1)
      ({ s with randomDeck := (shuffle s.OPTIONS rnd).1 } : Session α) (shuffle s.OPTIONS rnd).2 hp
    rw [drawMany] at hfull ⊢
    rw [key]
    exact hfull

theorem drawMany_add (m n : Nat) (s : Session α) (rnd : RandomSource) :
    drawMany (m + n) s rnd =
      ((drawMany m s rnd).1 ++ (drawMany n (drawMany m s rnd).2.1 (drawMany m s rnd).2.2).1,
        (drawMany n (drawMany m s rnd).2.1 (drawMany m s rnd).2.2).2) := by
  induction m generalizing s rnd with
  | zero => simp [drawMany]
  | succ m ih =>
    rw [Nat.succ_add]
    simp only [drawMany, ih, List.cons_append]

/-- A block of `N` draws that starts on a full or on an empty deck returns a
permutation of the corpus and ends on the empty deck. -/
theorem drawMany_block (s : Session α) (rnd : RandomSource)
    (h : s.randomDeck.Perm s.OPTIONS ∨ s.randomDeck = []) :
    (drawMany s.OPTIONS.length s rnd).1.Perm (s.OPTIONS.map some) ∧
      (drawMany s.OPTIONS.length s rnd).2.1.randomDeck = [] ∧
      (drawMany s.OPTIONS.length s rnd).2.1.OPTIONS = s.OPTIONS := by
  by_cases he : s.randomDeck = []
  · rw [drawMany_of_nil _ s rnd he rfl]
    refine ⟨?_, rfl, rfl⟩
    exact ((List.reverse_perm _).trans (shuffle_perm _ _)).map _
  · have hp : s.randomDeck.Perm s.OPTIONS := h.resolve_right he
    rw [drawMany_deck _ s rnd hp.length_eq]
    refine ⟨?_, rfl, rfl⟩
    exact ((List.reverse_perm _).trans hp).map _

theorem drawMany_blocks (s : Session α) (rnd : RandomSource)
    (h : s.randomDeck.Perm s.OPTIONS ∨ s.randomDeck = []) (k : Nat) :
    ((drawMany (k * s.OPTIONS.length) s rnd).2.1.randomDeck.Perm s.OPTIONS ∨
        (drawMany (k * s.OPTIONS.length) s rnd).2.1.randomDeck = []) ∧
      (drawMany (k * s.OPTIONS.length) s rnd).2.1.OPTIONS = s.OPTIONS := by
  induction k with
  | zero => simpa [drawMany] using h
  | succ k ih =>
    rw [Nat.succ_mul, drawMany_add]
    simp only
    have hb := drawMany_block (drawMany (k * s.OPTIONS.length) s rnd).2.1
      (drawMany (k * s.OPTIONS.length) s rnd).2.2 (by rw [ih.2]; exact ih.1)
    rw [ih.2] at hb
    exact ⟨Or.inr hb.2.1, hb.2.2⟩

end Deck

/-! ## Helper lemmas: the recency guard -/

section Recency

variable {α : Type}

theorem addToRecent_window (s : Session α) (index : Nat) :
    (addToRecent s index).recentVerseIndexes =
      (s.recentVerseIndexes ++ [index]).drop (if s.recentVerseIndexes.length + 1 > 3 then 1 else 0) := by
  unfold addToRecent RECENT_LIMIT
  simp only [List.length_append, List.length_singleton]
  split_ifs <;> simp

theorem pickFromRanked_of_absent (s : Session α) (before after : List (Candidate α))
    (c : Candidate α) (hb : ∀ x ∈ before, x.index ∈ s.recentVerseIndexes)
    (hc : c.index ∉ s.recentVerseIndexes) :
    pickFromRanked s (before ++ c :: after) = (.ok c.index, addToRecent s c.index) := by
  have hfind : (before ++ c :: after).find?
      (fun candidate => !s.recentVerseIndexes.contains candidate.index) = some c := by
    rw [List.find?_append]
    have h1 : before.find? (fun candidate => !s.recentVerseIndexes.contains candidate.index) = none := by
      rw [List.find?_eq_none]
      intro x hx
      simpa using hb x hx
    rw [h1]
    simp [List.find?_cons, hc]
  simp only [pickFromRanked, hfind]

theorem pickFromRanked_of_all_present (s : Session α) (top : Candidate α)
    (rest : List (Candidate α))
    (h : ∀ x ∈ top :: rest, x.index ∈ s.recentVerseIndexes) :
    pickFromRanked s (top :: rest) = (.ok top.index, addToRecent s top.index) := by
  have hfind : (top :: rest).find?
      (fun candidate => !s.recentVerseIndexes.contains candidate.index) = none := by
    rw [List.find?_eq_none]
    intro x hx
    simpa using h x hx
  simp only [pickFromRanked, hfind, List.head?_cons]

end Recency

/-! ## Helper lemmas: the ranker -/

section ArrayMap

variable {α : Type}

theorem arrayMapFrom_index {β : Type} (g : β → Nat → Option α) (k : Nat) (l : List β) :
    (arrayMapFrom (fun vector index => ({ index := index, score := g vector index } : Candidate α))
      k l).map (fun c => c.index) = List.range' k l.length := by
  induction l generalizing k with
  | nil => simp [arrayMapFrom]
  | cons x xs ih => simp [arrayMapFrom, ih, List.range'_succ]

theorem arrayMapFrom_mem {β : Type} (g : β → Option α) (k : Nat) (l : List β)
    (c : Candidate α)
    (hc : c ∈ arrayMapFrom (fun vector index => ({ index := index, score := g vector } : Candidate α))
      k l) :
    ∃ v, l[c.index - k]? = some v ∧ k ≤ c.index ∧ c.score = g v := by
  induction l generalizing k with
  | nil => simp [arrayMapFrom] at hc
  | cons x xs ih =>
    simp only [arrayMapFrom, List.mem_cons] at hc
    rcases hc with rfl | hc
    · exact ⟨x, by simp, Nat.le_refl _, rfl⟩
    · obtain ⟨v, hv, hk, hsc⟩ := ih (k + 1) hc
      refine ⟨v, ?_, by omega, hsc⟩
      have e : c.index - k = (c.index - (k + 1)) + 1 := by omega
      rw [e, List.getElem?_cons_succ]
      exact hv

end ArrayMap

section Ranker

variable {α : Type} [LinearOrderedRing α]

theorem sortCompare_compareScore (a b : Candidate α) (x y : α)
    (ha : a.score = some x) (hb : b.score = some y) :
    sortCompare compareScore a b = y - x := by
  simp [sortCompare, compareScore, ha, hb]

theorem scores_ne_of_sortCompare_pos (a b : Candidate α)
    (h : 0 < sortCompare compareScore a b) : a.score ≠ b.score := by
  intro e
  cases ha : a.score with
  | none => simp [sortCompare, compareScore, ha] at h
  | some x =>
    have hb : b.score = some x := by rw [← e, ha]
    rw [sortCompare_compareScore a b x x ha hb] at h
    simp at h

theorem insertStable_perm {β : Type} (comparefn : β → β → Option α) (x : β) (l : List β) :
    (insertStable comparefn x l).Perm (x :: l) := by
  induction l with
  | nil => simp [insertStable]
  | cons y ys ih =>
    simp only [insertStable]
    split_ifs
    · exact (ih.cons y).trans (List.Perm.swap x y ys)
    · exact List.Perm.refl _

theorem arraySort_perm {β : Type} (comparefn : β → β → Option α) (l : List β) :
    (arraySort comparefn l).Perm l := by
  induction l with
  | nil => simp [arraySort]
  | cons x xs ih =>
    simp only [arraySort]
    exact (insertStable_perm comparefn x _).trans (ih.cons x)

theorem ScoreGe.trans_le {a b c : Candidate α} (hab : ScoreGe a b) (hbc : ScoreGe b c) :
    ScoreGe a c := by
  obtain ⟨x, y, hx, hy, hxy⟩ := hab
  obtain ⟨y', z, hy', hz, hyz⟩ := hbc
  rw [hy] at hy'
  cases hy'
  exact ⟨x, z, hx, hz, hyz.trans hxy⟩

theorem insertStable_sorted (x : Candidate α) (l : List (Candidate α))
    (hx : ∃ v, x.score = some v) (hl : ∀ c ∈ l, ∃ v, c.score = some v)
    (hs : l.Pairwise ScoreGe) : (insertStable compareScore x l).Pairwise ScoreGe := by
  induction l with
  | nil => simp [insertStable]
  | cons y ys ih =>
    obtain ⟨vx, hvx⟩ := hx
    obtain ⟨vy, hvy⟩ := hl y (List.mem_cons_self _ _)
    rw [List.pairwise_cons] at hs
    simp only [insertStable, sortCompare_compareScore x y vx vy hvx hvy]
    split_ifs with hpos
    · rw [List.pairwise_cons]
      refine ⟨?_, ih (fun c hc => hl c (List.mem_cons_of_mem _ hc)) hs.2⟩
      intro z hz
      rcases List.mem_cons.mp ((insertStable_perm compareScore x ys).mem_iff.mp hz) with rfl | hz'
      · exact ⟨vy, vx, hvy, hvx, (sub_pos.mp hpos).le⟩
      · exact hs.1 z hz'
    · have hxy : ScoreGe x y := ⟨vx, vy, hvx, hvy, sub_nonpos.mp (not_lt.mp hpos)⟩
      rw [List.pairwise_cons]
      refine ⟨?_, List.pairwise_cons.mpr hs⟩
      intro z hz
      rcases List.mem_cons.mp hz with rfl | hz'
      · exact hxy
      · exact hxy.trans_le (hs.1 z hz')

theorem arraySort_sorted (l : List (Candidate α)) (hl : ∀ c ∈ l, ∃ v, c.score = some v) :
    (arraySort compareScore l).Pairwise ScoreGe := by
  induction l with
  | nil => simp [arraySort]
  | cons x xs ih =>
    simp only [arraySort]
    have hxs : ∀ c ∈ xs, ∃ v, c.score = some v := fun c hc => hl c (List.mem_cons_of_mem _ hc)
    refine insertStable_sorted x _ (hl x (List.mem_cons_self _ _)) ?_ (ih hxs)
    intro c hc
    exact hxs c ((arraySort_perm compareScore xs).mem_iff.mp hc)

theorem insertStable_stable (x : Candidate α) (l : List (Candidate α))
    (hx : ∀ c ∈ l, x.index < c.index)
    (hs : l.Pairwise (fun a b => a.score = b.score → a.index < b.index)) :
    (insertStable compareScore x l).Pairwise (fun a b => a.score = b.score → a.index < b.index) := by
  induction l with
  | nil => simp [insertStable]
  | cons y ys ih =>
    rw [List.pairwise_cons] at hs
    simp only [insertStable]
    split_ifs with hpos
    · rw [List.pairwise_cons]
      refine ⟨?_, ih (fun c hc => hx c (List.mem_cons_of_mem _ hc)) hs.2⟩
      intro z hz
      rcases List.mem_cons.mp ((insertStable_perm compareScore x ys).mem_iff.mp hz) with rfl | hz'
      · intro e
        exact absurd e.symm (scores_ne_of_sortCompare_pos _ _ hpos)
      · exact hs.1 z hz'
    · rw [List.pairwise_cons]
      exact ⟨fun z hz _ => hx z hz, List.pairwise_cons.mpr hs⟩

theorem arraySort_stable (l : List (Candidate α))
    (hl : l.Pairwise (fun a b => a.index < b.index)) :
    (arraySort compareScore l).Pairwise (fun a b => a.score = b.score → a.index < b.index) := by
  induction l with
  | nil => simp [arraySort]
  | cons x xs ih =>
    rw [List.pairwise_cons] at hl
    simp only [arraySort]
    refine insertStable_stable x _ ?_ (ih hl.2)
    intro c hc
    exact hl.1 c ((arraySort_perm compareScore xs).mem_iff.mp hc)

theorem cosineSimilarity_take (q v : List α) (n : Nat) (hq : n ≤ q.length)
    (hv : n ≤ v.length) :
    (List.range n).foldl
        (fun score i => do
          let acc ← score
          let a ← q[i]?
          let b ← v[i]?
          pure (acc + a * b))
        (some 0) = some (dotProduct (q.take n) (v.take n)) := by
  induction n with
  | zero => simp [dotProduct]
  | succ n ih =>
    rw [List.range_succ, List.foldl_append, ih (by omega) (by omega)]
    have hqn : n < q.length := by omega
    have hvn : n < v.length := by omega
    simp only [List.foldl_cons, List.foldl_nil, List.getElem?_eq_getElem hqn,
      List.getElem?_eq_getElem hvn, Option.pure_def, Option.bind_eq_bind, Option.some_bind]
    congr 1
    unfold dotProduct
    rw [List.take_succ, List.take_succ, List.getElem?_eq_getElem hqn,
      List.getElem?_eq_getElem hvn]
    simp only [Option.toList]
    rw [List.zipWith_append _ _ _ _ _ (by simp; omega)]
    simp

theorem cosineSimilarity_eq_dotProduct (q v : List α) (h : v.length = q.length) :
    cosineSimilarity q v = some (dotProduct q v) := by
  have e1 : q.take q.length = q := List.take_length _
  have e2 : v.take q.length = v := by rw [← h]; exact List.take_length _
  unfold cosineSimilarity
  rw [cosineSimilarity_take q v q.length (Nat.le_refl _) (by omega), e1, e2]

theorem rankVerses_perm (data : List α) (verseEmbeddings : List (List α)) :
    (rankVerses data verseEmbeddings).Perm
      (arrayMap (fun vector index =>
        ({ index := index, score := cosineSimilarity data vector } : Candidate α))
        verseEmbeddings) :=
  arraySort_perm _ _

theorem rankVerses_index_perm (data : List α) (verseEmbeddings : List (List α)) :
    ((rankVerses data verseEmbeddings).map fun c => c.index).Perm
      (List.range verseEmbeddings.length) := by
  have h := (rankVerses_perm data verseEmbeddings).map fun c => c.index
  unfold arrayMap at h
  rw [arrayMapFrom_index (fun vector _ => cosineSimilarity data vector) 0 verseEmbeddings] at h
  rw [List.range_eq_range']
  exact h

theorem rankVerses_mem (data : List α) (verseEmbeddings : List (List α)) (c : Candidate α)
    (hc : c ∈ rankVerses data verseEmbeddings) :
    ∃ v, verseEmbeddings[c.index]? = some v ∧ c.score = cosineSimilarity data v := by
  have h := (rankVerses_perm data verseEmbeddings).mem_iff.mp hc
  obtain ⟨v, hv, _, hs⟩ := arrayMapFrom_mem (fun vector => cosineSimilarity data vector) 0
    verseEmbeddings c h
  exact ⟨v, by simpa using hv, hs⟩

theorem rankVerses_score (data : List α) (verseEmbeddings : List (List α))
    (hdim : ∀ v ∈ verseEmbeddings, v.length = data.length) (c : Candidate α)
    (hc : c ∈ rankVerses data verseEmbeddings) :
    ∃ v, verseEmbeddings[c.index]? = some v ∧ c.score = some (dotProduct data v) := by
  obtain ⟨v, hv, hs⟩ := rankVerses_mem data verseEmbeddings c hc
  refine ⟨v, hv, ?_⟩
  rw [hs, cosineSimilarity_eq_dotProduct data v (hdim v (List.getElem?_mem hv))]

theorem rankVerses_sorted (data : List α) (verseEmbeddings : List (List α))
    (hdim : ∀ v ∈ verseEmbeddings, v.length = data.length) :
    (rankVerses data verseEmbeddings).Pairwise ScoreGe := by
  apply arraySort_sorted
  intro c hc
  have hc' : c ∈ rankVerses data verseEmbeddings :=
    (rankVerses_perm data verseEmbeddings).mem_iff.mpr hc
  obtain ⟨v, _, hs⟩ := rankVerses_score data verseEmbeddings hdim c hc'
  exact ⟨_, hs⟩

theorem rankVerses_stable (data : List α) (verseEmbeddings : List (List α)) :
    (rankVerses data verseEmbeddings).Pairwise
      (fun a b => a.score = b.score → a.index < b.index) := by
  apply arraySort_stable
  have h := arrayMapFrom_index (fun vector _ => cosineSimilarity data vector) 0 verseEmbeddings
  have hp : (List.range' 0 verseEmbeddings.length).Pairwise (fun a b => a < b) :=
    List.pairwise_lt_range' 0 _
  rw [← h, List.pairwise_map] at hp
  exact hp

theorem rankVerses_replicate (data v : List α) (n : Nat) :
    (rankVerses data (List.replicate n v)).map (fun c => c.index) = List.range n := by
  have hperm := rankVerses_index_perm data (List.replicate n v)
  rw [List.length_replicate] at hperm
  have hst := rankVerses_stable data (List.replicate n v)
  have hsorted : ((rankVerses data (List.replicate n v)).map fun c => c.index).Sorted
      (fun a b => a < b) := by
    unfold List.Sorted
    rw [List.pairwise_map]
    refine hst.imp_of_mem ?_
    intro a b ha hb hab
    obtain ⟨va, hva, hsa⟩ := rankVerses_mem data _ a ha
    obtain ⟨vb, hvb, hsb⟩ := rankVerses_mem data _ b hb
    have ea : va = v := List.eq_of_mem_replicate (List.getElem?_mem hva)
    have eb : vb = v := List.eq_of_mem_replicate (List.getElem?_mem hvb)
    apply hab
    rw [hsa, hsb, ea, eb]
  exact List.eq_of_perm_of_sorted hperm hsorted (List.sorted_lt_range n)

end Ranker

/-! ## Helper lemmas: corpus construction and context -/

theorem dedupeLoop_eq (array earlier seen out : List String)
    (hseen : ∀ k, k ∈ seen ↔ k ≠ "" ∧ ∃ e ∈ earlier, jsTrim e = k) :
    dedupeLoop array seen out = out ++ itemsWithFreshKey earlier array := by
  induction array generalizing earlier seen out with
  | nil => simp [dedupeLoop, itemsWithFreshKey]
  | cons item rest ih =>
    simp only [dedupeLoop, itemsWithFreshKey]
    by_cases hk : jsTrim item = "" ∨ jsTrim item ∈ seen
    · have hnot : ¬(jsTrim item ≠ "" ∧ ∀ e ∈ earlier, jsTrim e ≠ jsTrim item) := by
        rintro ⟨h1, h2⟩
        rcases hk with h | h
        · exact h1 h
        · obtain ⟨_, e, he, hee⟩ := (hseen _).mp h
          exact h2 e he hee
      rw [if_pos hk, if_neg hnot]
      apply ih
      intro k
      rw [hseen k]
      constructor
      · rintro ⟨h1, e, he, hee⟩
        exact ⟨h1, e, List.mem_append_left _ he, hee⟩
      · rintro ⟨h1, e, he, hee⟩
        rcases List.mem_append.mp he with he | he
        · exact ⟨h1, e, he, hee⟩
        · have hei : e = item := by simpa using he
          subst hei
          rcases hk with h | h
          · exact absurd (hee.symm.trans h) h1
          · exact (hseen k).mp (hee ▸ h)
    · have hyes : jsTrim item ≠ "" ∧ ∀ e ∈ earlier, jsTrim e ≠ jsTrim item := by
        refine ⟨fun h => hk (Or.inl h), ?_⟩
        intro e he hee
        exact hk (Or.inr ((hseen _).mpr ⟨fun h => hk (Or.inl h), e, he, hee⟩))
      rw [if_neg hk, if_pos hyes]
      rw [ih (earlier ++ [item]) (seen ++ [jsTrim item]) (out ++ [item])]
      · simp
      · intro k
        rw [List.mem_append, hseen k]
        constructor
        · rintro (⟨h1, e, he, hee⟩ | h)
          · exact ⟨h1, e, List.mem_append_left _ he, hee⟩
          · have hkk : k = jsTrim item := by simpa using h
            subst hkk
            exact ⟨hyes.1, item, by simp, rfl⟩
        · rintro ⟨h1, e, he, hee⟩
          rcases List.mem_append.mp he with he | he
          · exact Or.inl ⟨h1, e, he, hee⟩
          · have hei : e = item := by simpa using he
            subst hei
            exact Or.inr (by simp [hee])

theorem intercalate_go_append (x b sep : String) (rest : List String) :
    String.intercalate.go (x ++ b) sep rest = x ++ String.intercalate.go b sep rest := by
  induction rest generalizing b with
  | nil => simp [String.intercalate.go]
  | cons c cs ih =>
    simp only [String.intercalate.go]
    rw [← ih]
    simp only [String.append_assoc]

theorem join_eq_intercalate (l : List String) (sep : String) :
    join l sep = sep.intercalate l := by
  cases l with
  | nil => rfl
  | cons a rest =>
    simp only [String.intercalate]
    induction rest generalizing a with
    | nil => simp [join, String.intercalate.go]
    | cons b bs ih =>
      simp only [join, String.intercalate.go]
      rw [ih b, intercalate_go_append]

/-! ## Helper lemmas: sessions reachable after `bootstrap` -/

section ReachBasic

variable {α : Type}

theorem drawRandomVerse_frame (s : Session α) (rnd : RandomSource) :
    (drawRandomVerse s rnd).2.1.OPTIONS = s.OPTIONS ∧
      (drawRandomVerse s rnd).2.1.conversation = s.conversation ∧
      (drawRandomVerse s rnd).2.1.embedder = s.embedder ∧
      (drawRandomVerse s rnd).2.1.verseEmbeddings = s.verseEmbeddings ∧
      (drawRandomVerse s rnd).2.1.modelReady = s.modelReady ∧
      (drawRandomVerse s rnd).2.1.recentVerseIndexes = s.recentVerseIndexes := by
  unfold drawRandomVerse resetRandomDeck
  split_ifs <;> simp

theorem drawRandomVerse_mem (s : Session α) (rnd : RandomSource) (h : CorpusInv s) :
    ∃ v, (drawRandomVerse s rnd).1 = some v ∧ v ∈ s.OPTIONS := by
  by_cases he : s.randomDeck = []
  · rw [drawRandomVerse_of_nil s rnd he]
    have hne : (shuffle s.OPTIONS rnd).1 ≠ [] := by
      intro h0
      have hl := (shuffle_perm s.OPTIONS rnd).length_eq
      rw [h0] at hl
      exact h.1 (List.length_eq_zero.mp hl.symm)
    refine ⟨_, List.getLast?_eq_getLast _ hne, ?_⟩
    exact (shuffle_perm s.OPTIONS rnd).mem_iff.mp (List.getLast_mem hne)
  · rw [drawRandomVerse_of_ne_nil s rnd he]
    exact ⟨_, List.getLast?_eq_getLast _ he, h.2 _ (List.getLast_mem he)⟩

theorem drawRandomVerse_inv (s : Session α) (rnd : RandomSource) (h : CorpusInv s) :
    CorpusInv (drawRandomVerse s rnd).2.1 := by
  refine ⟨by rw [(drawRandomVerse_frame s rnd).1]; exact h.1, ?_⟩
  rw [(drawRandomVerse_frame s rnd).1]
  by_cases he : s.randomDeck = []
  · rw [drawRandomVerse_of_nil s rnd he]
    intro v hv
    exact (shuffle_perm s.OPTIONS rnd).mem_iff.mp (List.dropLast_subset _ hv)
  · rw [drawRandomVerse_of_ne_nil s rnd he]
    intro v hv
    exact h.2 v (List.dropLast_subset _ hv)

theorem pickFromRanked_cases (s : Session α) (ranked : List (Candidate α)) :
    (ranked = [] ∧ pickFromRanked s ranked = (.error .typeError, s)) ∨
      ∃ c ∈ ranked, pickFromRanked s ranked = (.ok c.index, addToRecent s c.index) := by
  unfold pickFromRanked
  cases hf : ranked.find? (fun candidate => !s.recentVerseIndexes.contains candidate.index) with
  | some c => exact Or.inr ⟨c, List.mem_of_find?_eq_some hf, rfl⟩
  | none =>
    cases ranked with
    | nil => exact Or.inl ⟨rfl, rfl⟩
    | cons top rest => exact Or.inr ⟨top, List.mem_cons_self _ _, rfl⟩

theorem semanticReady_iff (s : Session α) :
    semanticReady s = true ↔
      s.modelReady = true ∧ s.embedder = true ∧ s.verseEmbeddings.length = s.OPTIONS.length := by
  simp [semanticReady, and_assoc]

theorem warmupLoop_frame (embed : Nat → String → EmbedOutcome α) (verses : List String)
    (i : Nat) (s : Session α) :
    (warmupLoop embed verses i s).2.OPTIONS = s.OPTIONS ∧
      (warmupLoop embed verses i s).2.randomDeck = s.randomDeck := by
  induction verses generalizing i s with
  | nil => simp [warmupLoop]
  | cons verse rest ih =>
    simp only [warmupLoop]
    cases embed i verse with
    | none => simp
    | some data => exact ih _ _

theorem warmupEmbeddings_frame (s : Session α) (pipelineOk : Bool)
    (embed : Nat → String → EmbedOutcome α) :
    (warmupEmbeddings s pipelineOk embed).OPTIONS = s.OPTIONS ∧
      (warmupEmbeddings s pipelineOk embed).randomDeck = s.randomDeck := by
  unfold warmupEmbeddings
  cases pipelineOk with
  | false => simp
  | true =>
    simp only [if_true]
    have h := warmupLoop_frame embed s.OPTIONS 0
      ({ s with embedder := true, verseEmbeddings := [] } : Session α)
    generalize warmupLoop embed s.OPTIONS 0
      ({ s with embedder := true, verseEmbeddings := [] } : Session α) = r at h
    obtain ⟨res, s3⟩ := r
    cases res <;> exact h

theorem bootstrap_inv (response : Option String) (pipelineOk : Bool)
    (embed : Nat → String → EmbedOutcome α) (rnd : RandomSource) :
    CorpusInv (bootstrap (initialSession α) response pipelineOk embed rnd).1 := by
  unfold bootstrap
  simp only
  generalize hs1 : (match loadVerses response with
    | some fileVerses =>
      if (dedupePreserveOrder fileVerses).length ≠ 0 then
        { initialSession α with OPTIONS := dedupePreserveOrder fileVerses }
      else initialSession α
    | none => initialSession α) = s1
  have hne : s1.OPTIONS ≠ [] := by
    rw [← hs1]
    cases loadVerses response with
    | none => simp [initialSession, DEFAULT_VERSES]
    | some fileVerses =>
      simp only
      split_ifs with h
      · simpa using h
      · simp [initialSession, DEFAULT_VERSES]
  obtain ⟨ho, hd⟩ := warmupEmbeddings_frame (resetRandomDeck s1 rnd).1 pipelineOk embed
  refine ⟨by rw [ho]; exact hne, ?_⟩
  rw [ho, hd]
  intro v hv
  exact (shuffle_perm s1.OPTIONS rnd).mem_iff.mp hv

theorem bootstrap_randomDeck_perm (response : Option String) (pipelineOk : Bool)
    (embed : Nat → String → EmbedOutcome α) (rnd : RandomSource) :
    (bootstrap (initialSession α) response pipelineOk embed rnd).1.randomDeck.Perm
      (bootstrap (initialSession α) response pipelineOk embed rnd).1.OPTIONS := by
  unfold bootstrap
  simp only
  generalize (match loadVerses response with
    | some fileVerses =>
      if (dedupePreserveOrder fileVerses).length ≠ 0 then
        { initialSession α with OPTIONS := dedupePreserveOrder fileVerses }
      else initialSession α
    | none => initialSession α) = s1
  obtain ⟨ho, hd⟩ := warmupEmbeddings_frame (resetRandomDeck s1 rnd).1 pipelineOk embed
  rw [ho, hd]
  exact shuffle_perm s1.OPTIONS rnd

end ReachBasic

section Reach

variable {α : Type} [LinearOrderedRing α]

theorem rankVerses_length (data : List α) (verseEmbeddings : List (List α)) :
    (rankVerses data verseEmbeddings).length = verseEmbeddings.length := by
  have h := (rankVerses_index_perm data verseEmbeddings).length_eq
  simpa using h

theorem rankVerses_index_lt (data : List α) (verseEmbeddings : List (List α))
    (c : Candidate α) (hc : c ∈ rankVerses data verseEmbeddings) :
    c.index < verseEmbeddings.length := by
  have h : c.index ∈ (rankVerses data verseEmbeddings).map fun c => c.index :=
    List.mem_map_of_mem _ hc
  exact List.mem_range.mp ((rankVerses_index_perm data verseEmbeddings).mem_iff.mp h)

/-- From a ready session with a non-empty corpus the ranking is non-empty,
the pick succeeds with an index inside the corpus, and only the recency
window changes. -/
theorem chooseVerseResume_ok (s : Session α) (data : List α)
    (hready : semanticReady s = true) (hne : s.OPTIONS ≠ []) :
    rankVerses data s.verseEmbeddings ≠ [] ∧
      ∃ i v, i < s.OPTIONS.length ∧ s.OPTIONS[i]? = some v ∧ v ∈ s.OPTIONS ∧
        chooseVerseResume s data = (.ok (some v), addToRecent s i) := by
  obtain ⟨_, _, hlen⟩ := (semanticReady_iff s).mp hready
  have hrl := rankVerses_length data s.verseEmbeddings
  have hpos : 0 < s.OPTIONS.length := List.length_pos.mpr hne
  have hrne : rankVerses data s.verseEmbeddings ≠ [] := by
    intro h0
    rw [h0] at hrl
    simp at hrl
    omega
  refine ⟨hrne, ?_⟩
  rcases pickFromRanked_cases s (rankVerses data s.verseEmbeddings) with ⟨h0, _⟩ | ⟨c, hc, hpick⟩
  · exact absurd h0 hrne
  · have hi : c.index < s.OPTIONS.length := by
      rw [← hlen]
      exact rankVerses_index_lt data _ c hc
    refine ⟨c.index, s.OPTIONS[c.index], hi, List.getElem?_eq_getElem hi,
      List.getElem_mem hi, ?_⟩
    simp only [chooseVerseResume, hpick]
    have : (addToRecent s c.index).OPTIONS = s.OPTIONS := rfl
    rw [this, List.getElem?_eq_getElem hi]

theorem chooseVerse_of_ready (s : Session α) (promptText : String)
    (embed : String → EmbedOutcome α) (rnd : RandomSource) (hready : semanticReady s = true) :
    chooseVerse s promptText embed rnd =
      match embed (buildContext s promptText).1 with
      | none => (.error .embedError, s, rnd)
      | some data => ((chooseVerseResume s data).1, (chooseVerseResume s data).2, rnd) := by
  obtain ⟨h1, h2, h3⟩ := (semanticReady_iff s).mp hready
  simp only [chooseVerse, h1, h2, h3, bne_self_eq_false, Bool.not_true, Bool.or_self,
    Bool.false_eq_true, if_false]
  cases embed (buildContext s promptText).1 <;> rfl

theorem chooseVerse_of_not_ready (s : Session α) (promptText : String)
    (embed : String → EmbedOutcome α) (rnd : RandomSource) (hready : semanticReady s = false) :
    chooseVerse s promptText embed rnd =
      (.ok (drawRandomVerse s rnd).1, (drawRandomVerse s rnd).2) := by
  have hc : (!s.modelReady || !s.embedder ||
      s.verseEmbeddings.length != s.OPTIONS.length) = true := by
    unfold semanticReady at hready
    cases h1 : s.modelReady <;> cases h2 : s.embedder <;> simp_all
  simp only [chooseVerse, hc, if_true]

theorem reachable_inv (s : Session α) (h : Reachable s) : CorpusInv s := by
  induction h with
  | boot response pipelineOk embed rnd => exact bootstrap_inv response pipelineOk embed rnd
  | message s text sender _ ih => exact ih
  | draw s rnd _ ih => exact drawRandomVerse_inv s rnd ih
  | pick s data _ hready ih =>
    obtain ⟨_, i, v, _, _, _, hres⟩ := chooseVerseResume_ok s data hready ih.1
    rw [hres]
    exact ih

/-- The submit listener, once unfolded: what it returns and the session it
leaves in each of its four outcomes. -/
theorem submitHandler_cases (s : Session α) (inputValue : String)
    (embed : String → EmbedOutcome α) (rnd : RandomSource) (htext : jsTrim inputValue ≠ "") :
    let s0 := addMessage s (some (jsTrim inputValue)) "user"
    (semanticReady s0 = false ∧
        submitHandler s inputValue embed rnd =
          (some (drawRandomVerse s0 rnd.next).1,
            addMessage (drawRandomVerse s0 rnd.next).2.1 (drawRandomVerse s0 rnd.next).1 "bot",
            (drawRandomVerse s0 rnd.next).2.2)) ∨
      (semanticReady s0 = true ∧
        embed (buildContext s0 (jsTrim inputValue)).1 = none ∧
        submitHandler s inputValue embed rnd =
          (some (drawRandomVerse s0 rnd.next).1,
            addMessage (drawRandomVerse s0 rnd.next).2.1 (drawRandomVerse s0 rnd.next).1 "bot",
            (drawRandomVerse s0 rnd.next).2.2)) ∨
      (semanticReady s0 = true ∧
        ∃ data, embed (buildContext s0 (jsTrim inputValue)).1 = some data ∧
          ((∃ verse, (chooseVerseResume s0 data).1 = .ok verse ∧
              submitHandler s inputValue embed rnd =
                (some verse, addMessage (chooseVerseResume s0 data).2 verse "bot", rnd.next)) ∨
            (∃ e, (chooseVerseResume s0 data).1 = .error e ∧
              submitHandler s inputValue embed rnd =
                (some (drawRandomVerse (chooseVerseResume s0 data).2 rnd.next).1,
                  addMessage (drawRandomVerse (chooseVerseResume s0 data).2 rnd.next).2.1
                    (drawRandomVerse (chooseVerseResume s0 data).2 rnd.next).1 "bot",
                  (drawRandomVerse (chooseVerseResume s0 data).2 rnd.next).2.2)))) := by
  intro s0
  cases hready : semanticReady s0 with
  | false =>
    left
    refine ⟨rfl, ?_⟩
    simp only [submitHandler, htext, if_false, reply,
      chooseVerse_of_not_ready s0 _ embed rnd.next hready, replyCatch]
  | true =>
    right
    cases hembed : embed (buildContext s0 (jsTrim inputValue)).1 with
    | none =>
      left
      refine ⟨rfl, rfl, ?_⟩
      simp only [submitHandler, htext, if_false, reply,
        chooseVerse_of_ready s0 _ embed rnd.next hready, replyCatch]
      rw [hembed]
    | some data =>
      right
      refine ⟨rfl, data, rfl, ?_⟩
      cases hres : (chooseVerseResume s0 data).1 with
      | ok verse =>
        left
        refine ⟨verse, rfl, ?_⟩
        simp only [submitHandler, htext, if_false, reply,
          chooseVerse_of_ready s0 _ embed rnd.next hready, replyCatch]
        rw [hembed]
        simp only [hres]
      | error e =>
        right
        refine ⟨e, rfl, ?_⟩
        simp only [submitHandler, htext, if_false, reply,
          chooseVerse_of_ready s0 _ embed rnd.next hready, replyCatch]
        rw [hembed]
        simp only [hres]

/-- Readiness does not change along the steps that follow `bootstrap`, so a
request that found semantic mode ready still finds it ready when its
embedding call resolves. -/
theorem semanticReady_stable (s : Session α) :
    (∀ text sender, semanticReady (addMessage s text sender) = semanticReady s) ∧
      (∀ rnd, semanticReady (drawRandomVerse s rnd).2.1 = semanticReady s) ∧
      (∀ data, semanticReady (chooseVerseResume s data).2 = semanticReady s) := by
  refine ⟨fun _ _ => rfl, ?_, ?_⟩
  · intro rnd
    obtain ⟨fo, _, fe, fv, fm, _⟩ := drawRandomVerse_frame s rnd
    simp only [semanticReady, fo, fe, fv, fm]
  · intro data
    rcases pickFromRanked_cases s (rankVerses data s.verseEmbeddings) with ⟨_, h⟩ | ⟨c, _, h⟩
    · simp only [chooseVerseResume, h]
    · simp only [chooseVerseResume, h]
      rfl

/-- The submit listener run to its end stays inside the reachable sessions. -/
theorem reachable_submitHandler (s : Session α) (hs : Reachable s) (inputValue : String)
    (embed : String → EmbedOutcome α) (rnd : RandomSource) :
    Reachable (submitHandler s inputValue embed rnd).2.1 := by
  by_cases htext : jsTrim inputValue = ""
  · simp only [submitHandler, htext, if_true]
    exact hs
  · have hs0 : Reachable (addMessage s (some (jsTrim inputValue)) "user") :=
      Reachable.message s _ _ hs
    rcases submitHandler_cases s inputValue embed rnd htext with
      ⟨_, h⟩ | ⟨_, _, h⟩ | ⟨hready, data, _, ⟨verse, _, h⟩ | ⟨e, he, _⟩⟩
    · rw [h]
      exact Reachable.message _ _ _ (Reachable.draw _ _ hs0)
    · rw [h]
      exact Reachable.message _ _ _ (Reachable.draw _ _ hs0)
    · rw [h]
      exact Reachable.message _ _ _ (Reachable.pick _ data hs0 hready)
    · obtain ⟨_, i, v, _, _, _, hres⟩ :=
        chooseVerseResume_ok _ data hready (reachable_inv _ hs0).1
      rw [hres] at he
      cases he

end Reach

/-! ## Helper lemmas: the corpus `bootstrap` builds -/

theorem trimChars_idempotent (cs : List Char) : trimChars (trimChars cs) = trimChars cs := by
  have hform : ∀ l : List Char, trimChars l = (l.dropWhile isTrimChar).rdropWhile isTrimChar :=
    fun _ => rfl
  have hhead : (trimChars cs).dropWhile isTrimChar = trimChars cs := by
    have hpre : trimChars cs <+: cs.dropWhile isTrimChar := by
      rw [hform]
      exact List.rdropWhile_prefix _ _
    obtain ⟨t, ht⟩ := hpre
    cases hm : trimChars cs with
    | nil => rfl
    | cons a m =>
      rw [hm] at ht
      have hnot := List.head?_dropWhile_not isTrimChar cs
      rw [← ht] at hnot
      simp only [List.cons_append, List.head?_cons] at hnot
      simp [List.dropWhile_cons, hnot]
  rw [hform (trimChars cs), hhead, hform cs]
  exact List.rdropWhile_idempotent _ _

theorem jsTrim_idempotent (s : String) : jsTrim (jsTrim s) = jsTrim s := by
  unfold jsTrim
  simp only [trimChars_idempotent]

theorem loadVerses_lines (text : String) (line : String)
    (h : line ∈ ((splitLines text.data).map fun l => jsTrim ⟨l⟩).filter fun l => l ≠ "") :
    jsTrim line = line ∧ line ≠ "" := by
  rw [List.mem_filter, List.mem_map] at h
  obtain ⟨⟨l, _, rfl⟩, hne⟩ := h
  exact ⟨jsTrim_idempotent _, by simpa using hne⟩

theorem itemsWithFreshKey_of_trimmed (earlier l : List String)
    (he : ∀ x ∈ earlier, jsTrim x = x) (hl : ∀ x ∈ l, jsTrim x = x ∧ x ≠ "") :
    itemsWithFreshKey earlier l = keepFirstOccurrences earlier l := by
  induction l generalizing earlier with
  | nil => rfl
  | cons item rest ih =>
    obtain ⟨ht, hne⟩ := hl item (List.mem_cons_self _ _)
    have hrest : ∀ x ∈ rest, jsTrim x = x ∧ x ≠ "" :=
      fun x hx => hl x (List.mem_cons_of_mem _ hx)
    have he2 : ∀ x ∈ earlier ++ [item], jsTrim x = x := by
      intro x hx
      rcases List.mem_append.mp hx with h | h
      · exact he x h
      · have : x = item := by simpa using h
        rw [this]
        exact ht
    simp only [itemsWithFreshKey, keepFirstOccurrences, ht]
    by_cases hmem : item ∈ earlier
    · have hnot : ¬(item ≠ "" ∧ ∀ e ∈ earlier, jsTrim e ≠ item) := by
        rintro ⟨_, h⟩
        exact h item hmem (he item hmem)
      rw [if_neg hnot, if_pos hmem]
      exact ih _ he2 hrest
    · have hyes : item ≠ "" ∧ ∀ e ∈ earlier, jsTrim e ≠ item := by
        refine ⟨hne, ?_⟩
        intro e hin heq
        rw [he e hin] at heq
        exact hmem (heq ▸ hin)
      rw [if_pos hyes, if_neg hmem]
      rw [ih _ he2 hrest]

theorem keepFirstOccurrences_mem (earlier l : List String) (x : String)
    (h : x ∈ keepFirstOccurrences earlier l) : x ∈ l ∧ x ∉ earlier := by
  induction l generalizing earlier with
  | nil => simp [keepFirstOccurrences] at h
  | cons item rest ih =>
    simp only [keepFirstOccurrences] at h
    split_ifs at h with hmem
    · obtain ⟨h1, h2⟩ := ih _ h
      exact ⟨List.mem_cons_of_mem _ h1, fun hx => h2 (List.mem_append_left _ hx)⟩
    · rcases List.mem_cons.mp h with rfl | h
      · exact ⟨List.mem_cons_self _ _, hmem⟩
      · obtain ⟨h1, h2⟩ := ih _ h
        exact ⟨List.mem_cons_of_mem _ h1, fun hx => h2 (List.mem_append_left _ hx)⟩

theorem keepFirstOccurrences_nodup (earlier l : List String) :
    (keepFirstOccurrences earlier l).Nodup := by
  induction l generalizing earlier with
  | nil => simp [keepFirstOccurrences]
  | cons item rest ih =>
    simp only [keepFirstOccurrences]
    split_ifs with hmem
    · exact ih _
    · rw [List.nodup_cons]
      refine ⟨?_, ih _⟩
      intro hin
      exact (keepFirstOccurrences_mem _ _ _ hin).2 (by simp)

theorem splitLines_ne_nil (cs : List Char) : splitLines cs ≠ [] := by
  induction cs with
  | nil => simp [splitLines]
  | cons c rest ih =>
    simp only [splitLines]
    split_ifs
    · simp
    · exact ih
    · cases h : splitLines rest <;> simp

theorem splitLines_no_lf (cs : List Char) :
    ∀ line ∈ splitLines cs, Char.ofNat 0x0A ∉ line := by
  induction cs with
  | nil => simp [splitLines]
  | cons c rest ih =>
    simp only [splitLines]
    split_ifs with h1 h2
    · intro line hl
      rcases List.mem_cons.mp hl with rfl | hl
      · simp
      · exact ih line hl
    · exact ih
    · cases h : splitLines rest with
      | nil => exact absurd h (splitLines_ne_nil rest)
      | cons first others =>
        rw [h] at ih
        intro line hl
        simp only [List.mem_cons] at hl
        rcases hl with rfl | hl
        · intro hin
          rcases List.mem_cons.mp hin with e | hin
          · exact h1 e.symm
          · exact ih first (List.mem_cons_self _ _) hin
        · exact ih line (List.mem_cons_of_mem _ hl)

theorem splitLines_intercalate (cs : List Char) :
    List.intercalate [Char.ofNat 0x0A] (splitLines cs) = stripCrBeforeLf cs := by
  induction cs with
  | nil => simp [splitLines, stripCrBeforeLf, List.intercalate]
  | cons c rest ih =>
    simp only [splitLines, stripCrBeforeLf]
    split_ifs with h1 h2
    · exact absurd (h1.symm.trans h2.1) (by decide)
    · cases h : splitLines rest with
      | nil => exact absurd h (splitLines_ne_nil rest)
      | cons first others =>
        rw [h] at ih
        rw [← ih, h1]
        simp [List.intercalate]
    · exact ih
    · cases h : splitLines rest with
      | nil => exact absurd h (splitLines_ne_nil rest)
      | cons first others =>
        rw [h] at ih
        rw [← ih]
        cases others <;> simp [List.intercalate]

theorem bootstrap_OPTIONS {α : Type} (s : Session α) (response : Option String)
    (pipelineOk : Bool) (embed : Nat → String → EmbedOutcome α) (rnd : RandomSource) :
    (bootstrap s response pipelineOk embed rnd).1.OPTIONS =
      match loadVerses response with
      | some fileVerses =>
        if (dedupePreserveOrder fileVerses).length ≠ 0 then dedupePreserveOrder fileVerses
        else s.OPTIONS
      | none => s.OPTIONS := by
  unfold bootstrap
  simp only
  rw [(warmupEmbeddings_frame _ pipelineOk embed).1]
  simp only [resetRandomDeck]
  cases loadVerses response with
  | none => rfl
  | some fileVerses =>
    simp only
    split_ifs <;> rfl

theorem dedupePreserveOrder_of_lines (text : String) :
    dedupePreserveOrder
        (((splitLines text.data).map fun l => jsTrim ⟨l⟩).filter fun l => l ≠ "") =
      keepFirstOccurrences []
        (((splitLines text.data).map fun l => jsTrim ⟨l⟩).filter fun l => l ≠ "") := by
  unfold dedupePreserveOrder
  rw [dedupeLoop_eq _ [] [] [] (by simp)]
  simp only [List.nil_append]
  exact itemsWithFreshKey_of_trimmed [] _ (by simp) (fun x hx => loadVerses_lines text x hx)

theorem keepFirstOccurrences_eq_nil (l : List String) :
    keepFirstOccurrences [] l = [] ↔ l = [] := by
  cases l with
  | nil => simp [keepFirstOccurrences]
  | cons item rest => simp [keepFirstOccurrences]

/-! ## Helper lemmas: warm-up and the sessions after `bootstrap` -/

section Warmup

variable {α : Type}

/-- The indexing loop either embeds every verse and appends the vectors in
order, or stops at a call that fails, having appended the vectors before
it. -/
theorem warmupLoop_spec (embed : Nat → String → EmbedOutcome α) (verses : List String)
    (i : Nat) (s : Session α) :
    (∃ datas : List (List α),
        warmupLoop embed verses i s =
          (.ok (), { s with verseEmbeddings := s.verseEmbeddings ++ datas }) ∧
        datas.length = verses.length ∧
        ∀ k verse, verses[k]? = some verse →
          ∃ data, embed (i + k) verse = some data ∧ datas[k]? = some data) ∨
      (∃ datas : List (List α),
        warmupLoop embed verses i s =
          (.error .embedError, { s with verseEmbeddings := s.verseEmbeddings ++ datas }) ∧
        ∃ k verse, verses[k]? = some verse ∧ embed (i + k) verse = none) := by
  induction verses generalizing i s with
  | nil =>
    left
    exact ⟨[], by simp [warmupLoop], rfl, by simp⟩
  | cons verse rest ih =>
    cases he : embed i verse with
    | none =>
      right
      exact ⟨[], by simp [warmupLoop, he], 0, verse, by simp, by simpa using he⟩
    | some data =>
      rcases ih (i + 1) { s with verseEmbeddings := s.verseEmbeddings ++ [data] } with
        ⟨datas, hrun, hlen, hall⟩ | ⟨datas, hrun, k, v, hk, hnone⟩
      · left
        refine ⟨data :: datas, ?_, by simp [hlen], ?_⟩
        · simp only [warmupLoop, he, hrun]
          simp
        · intro k v hk
          cases k with
          | zero =>
            simp only [List.getElem?_cons_zero, Option.some.injEq] at hk
            subst hk
            exact ⟨data, by simpa using he, by simp⟩
          | succ k =>
            simp only [List.getElem?_cons_succ] at hk
            obtain ⟨d, hd1, hd2⟩ := hall k v hk
            refine ⟨d, ?_, by simpa using hd2⟩
            rw [← hd1]
            congr 1
            omega
      · right
        refine ⟨data :: datas, ?_, k + 1, v, by simpa using hk, ?_⟩
        · simp only [warmupLoop, he, hrun]
          simp
        · rw [← hnone]
          congr 1
          omega

/-- Warm-up sets the flag exactly when the pipeline loads and every verse
is embedded; the index then holds the embedder's answers in corpus order. -/
theorem warmupEmbeddings_spec (s : Session α) (pipelineOk : Bool)
    (embed : Nat → String → EmbedOutcome α) :
    ((warmupEmbeddings s pipelineOk embed).modelReady = true ↔
        pipelineOk = true ∧
          ∀ k verse, s.OPTIONS[k]? = some verse → ∃ data, embed k verse = some data) ∧
      ((warmupEmbeddings s pipelineOk embed).modelReady = true →
        (warmupEmbeddings s pipelineOk embed).embedder = true ∧
        (warmupEmbeddings s pipelineOk embed).verseEmbeddings.length = s.OPTIONS.length ∧
        ∀ k verse, s.OPTIONS[k]? = some verse →
          ∃ data, embed k verse = some data ∧
            (warmupEmbeddings s pipelineOk embed).verseEmbeddings[k]? = some data) := by
  cases pipelineOk with
  | false => simp [warmupEmbeddings]
  | true =>
    rcases warmupLoop_spec embed s.OPTIONS 0
        ({ s with embedder := true, verseEmbeddings := [] } : Session α) with
      ⟨datas, hrun, hlen, hall⟩ | ⟨datas, hrun, k, v, hk, hnone⟩
    · have hw : warmupEmbeddings s true embed =
          { s with embedder := true, verseEmbeddings := datas, modelReady := true } := by
        simp only [warmupEmbeddings, if_true]
        rw [hrun]
        simp
      rw [hw]
      have hall2 : ∀ k verse, s.OPTIONS[k]? = some verse →
          ∃ data, embed k verse = some data ∧ datas[k]? = some data := by
        intro k verse hk
        simpa using hall k verse hk
      refine ⟨⟨fun _ => ⟨rfl, fun k verse hk => ?_⟩, fun _ => rfl⟩, fun _ => ⟨rfl, hlen, hall2⟩⟩
      obtain ⟨d, hd, _⟩ := hall2 k verse hk
      exact ⟨d, hd⟩
    · have hw : (warmupEmbeddings s true embed).modelReady = false := by
        simp only [warmupEmbeddings, if_true]
        rw [hrun]
      rw [hw]
      refine ⟨⟨fun h => (by cases h), ?_⟩, fun h => (by cases h)⟩
      rintro ⟨_, hall⟩
      obtain ⟨d, hd⟩ := hall k v hk
      rw [Nat.zero_add] at hnone
      rw [hnone] at hd
      cases hd

end Warmup

section LaterBasic

variable {α : Type}

theorem pickFromRanked_frame (s : Session α) (ranked : List (Candidate α)) :
    ∃ w, (pickFromRanked s ranked).2 = { s with recentVerseIndexes := w } := by
  rcases pickFromRanked_cases s ranked with ⟨_, h⟩ | ⟨c, _, h⟩
  · exact ⟨s.recentVerseIndexes, by rw [h]⟩
  · exact ⟨_, by rw [h]; rfl⟩

end LaterBasic

section LaterSteps

variable {α : Type} [LinearOrderedRing α]

theorem chooseVerseResume_frame (s : Session α) (data : List α) :
    ∃ w, (chooseVerseResume s data).2 = { s with recentVerseIndexes := w } := by
  rcases pickFromRanked_cases s (rankVerses data s.verseEmbeddings) with ⟨_, h⟩ | ⟨c, _, h⟩
  · exact ⟨s.recentVerseIndexes, by simp only [chooseVerseResume, h]⟩
  · exact ⟨_, by simp only [chooseVerseResume, h]; rfl⟩

/-- The steps after `bootstrap` change neither the corpus nor the embedding
index nor the flag nor the embedder. -/
theorem later_frame (s0 s : Session α) (h : Later s0 s) :
    s.OPTIONS = s0.OPTIONS ∧ s.verseEmbeddings = s0.verseEmbeddings ∧
      s.modelReady = s0.modelReady ∧ s.embedder = s0.embedder := by
  induction h with
  | start => exact ⟨rfl, rfl, rfl, rfl⟩
  | message s text sender _ ih => exact ih
  | draw s rnd _ ih =>
    obtain ⟨fo, _, fe, fv, fm, _⟩ := drawRandomVerse_frame s rnd
    exact ⟨fo.trans ih.1, fv.trans ih.2.1, fm.trans ih.2.2.1, fe.trans ih.2.2.2⟩
  | pick s data _ _ ih =>
    obtain ⟨w, hw⟩ := chooseVerseResume_frame s data
    rw [hw]
    exact ih

theorem reachable_iff_later (s : Session α) :
    Reachable s ↔ ∃ (response : Option String) (pipelineOk : Bool)
      (embed : Nat → String → EmbedOutcome α) (rnd : RandomSource),
      Later (bootstrap (initialSession α) response pipelineOk embed rnd).1 s := by
  constructor
  · intro h
    induction h with
    | boot response pipelineOk embed rnd => exact ⟨response, pipelineOk, embed, rnd, Later.start⟩
    | message s text sender _ ih =>
      obtain ⟨r, p, e, g, h⟩ := ih
      exact ⟨r, p, e, g, Later.message s text sender h⟩
    | draw s rnd _ ih =>
      obtain ⟨r, p, e, g, h⟩ := ih
      exact ⟨r, p, e, g, Later.draw s rnd h⟩
    | pick s data _ hready ih =>
      obtain ⟨r, p, e, g, h⟩ := ih
      exact ⟨r, p, e, g, Later.pick s data h hready⟩
  · rintro ⟨r, p, e, g, h⟩
    induction h with
    | start => exact Reachable.boot r p e g
    | message s text sender _ ih => exact Reachable.message s text sender ih
    | draw s rnd _ ih => exact Reachable.draw s rnd ih
    | pick s data _ hready ih => exact Reachable.pick s data ih hready

/-- The submit listener run to its end is a sequence of the steps of
`Later`. -/
theorem later_submitHandler (s0 s : Session α) (hs : Later s0 s) (inputValue : String)
    (embed : String → EmbedOutcome α) (rnd : RandomSource) :
    Later s0 (submitHandler s inputValue embed rnd).2.1 := by
  by_cases htext : jsTrim inputValue = ""
  · simp only [submitHandler, htext, if_true]
    exact hs
  · have hs1 : Later s0 (addMessage s (some (jsTrim inputValue)) "user") :=
      Later.message s _ _ hs
    rcases submitHandler_cases s inputValue embed rnd htext with
      ⟨_, h⟩ | ⟨_, _, h⟩ | ⟨hready, data, _, ⟨verse, _, h⟩ | ⟨e, _, h⟩⟩
    · rw [h]
      exact Later.message _ _ _ (Later.draw _ _ hs1)
    · rw [h]
      exact Later.message _ _ _ (Later.draw _ _ hs1)
    · rw [h]
      exact Later.message _ _ _ (Later.pick _ data hs1 hready)
    · rw [h]
      exact Later.message _ _ _ (Later.draw _ _ (Later.pick _ data hs1 hready))

/-- A request handled when semantic mode is not ready: the reply is the
draw, and the embedder's answers play no part. -/
theorem submitHandler_of_not_ready (s : Session α) (inputValue : String)
    (embed : String → EmbedOutcome α) (rnd : RandomSource) (htext : jsTrim inputValue ≠ "")
    (hready : semanticReady s = false) :
    submitHandler s inputValue embed rnd =
      (some (drawRandomVerse (addMessage s (some (jsTrim inputValue)) "user") rnd.next).1,
        addMessage (drawRandomVerse (addMessage s (some (jsTrim inputValue)) "user") rnd.next).2.1
          (drawRandomVerse (addMessage s (some (jsTrim inputValue)) "user") rnd.next).1 "bot",
        (drawRandomVerse (addMessage s (some (jsTrim inputValue)) "user") rnd.next).2.2) := by
  have hready0 : semanticReady (addMessage s (some (jsTrim inputValue)) "user") = false := hready
  rcases submitHandler_cases s inputValue embed rnd htext with
    ⟨_, h⟩ | ⟨hr, _, _⟩ | ⟨hr, _⟩
  · exact h
  · rw [hready0] at hr
    cases hr
  · rw [hready0] at hr
    cases hr

end LaterSteps

/-! ## Helper lemmas: runs of picks -/

section Picks

variable {α : Type}

theorem lastThree_push (hist : List Nat) (index : Nat) :
    (hist.drop (hist.length - 3) ++ [index]).drop
        (if (hist.drop (hist.length - 3)).length + 1 > 3 then 1 else 0) =
      (hist ++ [index]).drop ((hist ++ [index]).length - 3) := by
  rw [List.length_drop, List.length_append, List.length_singleton]
  by_cases h : hist.length ≤ 2
  · have h1 : hist.length - 3 = 0 := by omega
    have h2 : hist.length + 1 - 3 = 0 := by omega
    have h3 : ¬(hist.length - (hist.length - 3) + 1 > 3) := by omega
    rw [if_neg h3, h1, h2]
    simp
  · have h3 : hist.length - (hist.length - 3) + 1 > 3 := by omega
    rw [if_pos h3]
    have h4 : hist.length + 1 - 3 = (hist.length - 3) + 1 := by omega
    have e1 : (hist ++ [index]).drop (hist.length - 3 + 1) =
        hist.drop (hist.length - 3 + 1) ++ [index] :=
      List.drop_append_of_le_length (by omega)
    have e2 : (hist.drop (hist.length - 3) ++ [index]).drop 1 =
        (hist.drop (hist.length - 3)).drop 1 ++ [index] :=
      List.drop_append_of_le_length (by rw [List.length_drop]; omega)
    rw [h4, e1, e2, List.drop_drop]

theorem pickMany_window (rankings : List (List (Candidate α))) (s : Session α)
    (hist : List Nat) (h : s.recentVerseIndexes = hist.drop (hist.length - 3)) :
    (pickMany rankings s).2.recentVerseIndexes =
      (hist ++ (pickMany rankings s).1).drop ((hist ++ (pickMany rankings s).1).length - 3) := by
  induction rankings generalizing s hist with
  | nil => simpa [pickMany] using h
  | cons ranked rest ih =>
    rcases pickFromRanked_cases s ranked with ⟨_, hp⟩ | ⟨c, _, hp⟩
    · simp only [pickMany, hp]
      exact ih s hist h
    · simp only [pickMany, hp]
      have hstep : (addToRecent s c.index).recentVerseIndexes =
          (hist ++ [c.index]).drop ((hist ++ [c.index]).length - 3) := by
        rw [addToRecent_window, h]
        exact lastThree_push hist c.index
      have := ih (addToRecent s c.index) (hist ++ [c.index]) hstep
      simpa using this

end Picks

section PicksLarge

variable {α : Type}

/-- A window of at most three indices misses one of four or more indices. -/
theorem exists_absent_candidate (ranked : List (Candidate α)) (window : List Nat) (N : Nat)
    (hN : 4 ≤ N) (hr : (ranked.map fun c => c.index).Perm (List.range N))
    (hw : window.length ≤ 3) : ∃ c ∈ ranked, c.index ∉ window := by
  by_contra hcon
  have hall : ∀ c ∈ ranked, c.index ∈ window := by
    intro c hc
    by_contra hnot
    exact hcon ⟨c, hc, hnot⟩
  have hsub : List.range N ⊆ window := by
    intro n hn
    have hn2 := hr.mem_iff.mpr hn
    obtain ⟨c, hc, rfl⟩ := List.mem_map.mp hn2
    exact hall c hc
  have hle := ((List.nodup_range N).subperm hsub).length_le
  rw [List.length_range] at hle
  omega

theorem pickFromRanked_of_exists_absent (s : Session α) (ranked : List (Candidate α))
    (h : ∃ c ∈ ranked, c.index ∉ s.recentVerseIndexes) :
    ∃ c ∈ ranked, c.index ∉ s.recentVerseIndexes ∧
      pickFromRanked s ranked = (.ok c.index, addToRecent s c.index) := by
  cases hf : ranked.find? (fun candidate => !s.recentVerseIndexes.contains candidate.index) with
  | none =>
    obtain ⟨c, hc, hnot⟩ := h
    rw [List.find?_eq_none] at hf
    exact absurd (by simpa using hnot) (hf c hc)
  | some c =>
    refine ⟨c, List.mem_of_find?_eq_some hf, ?_, ?_⟩
    · have := List.find?_some hf
      simpa using this
    · simp only [pickFromRanked, hf]

theorem noRepeat_push (hist : List Nat) (index : Nat) (h : NoRepeatWithinThree hist)
    (hnot : index ∉ hist.drop (hist.length - 3)) : NoRepeatWithinThree (hist ++ [index]) := by
  intro a b x y hab hb3 hx hy
  have hblt : b < (hist ++ [index]).length := by
    by_contra hge
    rw [List.getElem?_eq_none (by omega)] at hy
    cases hy
  rw [List.length_append, List.length_singleton] at hblt
  have halt : a < hist.length := by omega
  rw [List.getElem?_append_left halt] at hx
  by_cases hbl : b < hist.length
  · rw [List.getElem?_append_left hbl] at hy
    exact h a b x y hab hb3 hx hy
  · have hbe : b = hist.length := by omega
    subst hbe
    rw [List.getElem?_append_right (Nat.le_refl _)] at hy
    simp only [Nat.sub_self, List.getElem?_cons_zero, Option.some.injEq] at hy
    subst hy
    intro hxy
    subst hxy
    apply hnot
    have hd : (hist.drop (hist.length - 3))[a - (hist.length - 3)]? = some x := by
      rw [List.getElem?_drop]
      rw [← hx]
      congr 1
      omega
    exact List.getElem?_mem hd

theorem pickMany_noRepeat (N : Nat) (hN : 4 ≤ N) (rankings : List (List (Candidate α)))
    (s : Session α) (hist : List Nat)
    (hr : ∀ r ∈ rankings, (r.map fun c => c.index).Perm (List.range N))
    (hw : s.recentVerseIndexes = hist.drop (hist.length - 3))
    (hh : NoRepeatWithinThree hist) :
    (pickMany rankings s).1.length = rankings.length ∧
      NoRepeatWithinThree (hist ++ (pickMany rankings s).1) := by
  induction rankings generalizing s hist with
  | nil => simpa [pickMany] using hh
  | cons ranked rest ih =>
    have hlen : s.recentVerseIndexes.length ≤ 3 := by
      rw [hw, List.length_drop]
      omega
    obtain ⟨c, _, hnot, hp⟩ := pickFromRanked_of_exists_absent s ranked
      (exists_absent_candidate ranked _ N hN (hr ranked (List.mem_cons_self _ _)) hlen)
    have hstep : (addToRecent s c.index).recentVerseIndexes =
        (hist ++ [c.index]).drop ((hist ++ [c.index]).length - 3) := by
      rw [addToRecent_window, hw]
      exact lastThree_push hist c.index
    have hh2 : NoRepeatWithinThree (hist ++ [c.index]) :=
      noRepeat_push hist c.index hh (hw ▸ hnot)
    obtain ⟨h1, h2⟩ := ih (addToRecent s c.index) (hist ++ [c.index])
      (fun r hr2 => hr r (List.mem_cons_of_mem _ hr2)) hstep hh2
    simp only [pickMany, hp, List.length_cons, h1]
    exact ⟨trivial, by simpa using h2⟩

theorem bootstrap_recent (s : Session α) (response : Option String) (pipelineOk : Bool)
    (embed : Nat → String → EmbedOutcome α) (rnd : RandomSource) :
    (bootstrap s response pipelineOk embed rnd).1.recentVerseIndexes = s.recentVerseIndexes := by
  have hwarm : ∀ s1 : Session α,
      (warmupEmbeddings s1 pipelineOk embed).recentVerseIndexes = s1.recentVerseIndexes := by
    intro s1
    cases pipelineOk with
    | false => rfl
    | true =>
      simp only [warmupEmbeddings, if_true]
      rcases warmupLoop_spec embed s1.OPTIONS 0
          ({ s1 with embedder := true, verseEmbeddings := [] } : Session α) with
        ⟨datas, hrun, _⟩ | ⟨datas, hrun, _⟩
      · rw [hrun]
      · rw [hrun]
  unfold bootstrap
  simp only
  rw [hwarm]
  simp only [resetRandomDeck]
  cases loadVerses response with
  | none => rfl
  | some fileVerses =>
    simp only
    split_ifs <;> rfl

end PicksLarge

section ReachWindow

variable {α : Type} [LinearOrderedRing α]

theorem reachable_window_le (s : Session α) (h : Reachable s) :
    s.recentVerseIndexes.length ≤ 3 := by
  induction h with
  | boot response pipelineOk embed rnd =>
    rw [bootstrap_recent]
    simp [initialSession]
  | message s text sender _ ih => exact ih
  | draw s rnd _ ih =>
    rw [(drawRandomVerse_frame s rnd).2.2.2.2.2]
    exact ih
  | pick s data _ _ ih =>
    rcases pickFromRanked_cases s (rankVerses data s.verseEmbeddings) with ⟨_, hp⟩ | ⟨c, _, hp⟩
    · simp only [chooseVerseResume, hp]
      exact ih
    · simp only [chooseVerseResume, hp]
      rw [addToRecent_window, List.length_drop, List.length_append, List.length_singleton]
      split_ifs <;> omega

end ReachWindow

/-! ## Helper lemmas: `shuffle` as a map from choice sequences -/

section Choices

variable {β : Type}

theorem nodup_getElem?_inj {l : List β} (h : l.Nodup) {a b : Nat} {x : β}
    (ha : l[a]? = some x) (hb : l[b]? = some x) : a = b := by
  obtain ⟨ha1, ha2⟩ := List.getElem?_eq_some_iff.mp ha
  obtain ⟨hb1, hb2⟩ := List.getElem?_eq_some_iff.mp hb
  exact (h.getElem_inj_iff).mp (ha2.trans hb2.symm)

theorem swap_length (copy : List β) (i j : Nat) : (swap copy i j).length = copy.length :=
  (swap_perm copy i j).length_eq

theorem swap_getElem? (copy : List β) (i j k : Nat) (hi : i < copy.length)
    (hj : j < copy.length) :
    (swap copy i j)[k]? =
      if k = j then copy[i]? else if k = i then copy[j]? else copy[k]? := by
  unfold swap
  rw [List.getElem?_eq_getElem hi, List.getElem?_eq_getElem hj]
  simp only
  rw [List.getElem?_set, List.length_set, List.getElem?_set]
  by_cases hkj : k = j
  · subst hkj
    simp [hj]
  · have hjk : ¬j = k := fun e => hkj e.symm
    rw [if_neg hjk, if_neg hkj]
    by_cases hki : k = i
    · subst hki
      simp [hi]
    · have hik : ¬i = k := fun e => hki e.symm
      rw [if_neg hik, if_neg hki]

theorem shuffleLoop_eq_shuffleBy (i : Nat) (rnd : RandomSource) (copy : List β) :
    (shuffleLoop i rnd copy).1 = shuffleBy i (shuffleChoices i rnd) copy := by
  induction i generalizing rnd copy with
  | zero => rfl
  | succ i ih => simp only [shuffleLoop, shuffleChoices, shuffleBy, ih]

theorem shuffleChoices_valid (i : Nat) (rnd : RandomSource) :
    ValidChoices i (shuffleChoices i rnd) := by
  induction i generalizing rnd with
  | zero => rfl
  | succ i ih =>
    refine ⟨_, _, rfl, ?_, ih rnd.next⟩
    have := Rand.floorMul_lt (rnd 0) (i + 1 + 1) (by omega)
    omega

theorem validChoices_realised (i : Nat) (js : List Nat) (h : ValidChoices i js) :
    ∃ rnd : RandomSource, shuffleChoices i rnd = js := by
  induction i generalizing js with
  | zero =>
    exact ⟨fun _ => ⟨0, 1, by decide⟩, h.symm⟩
  | succ i ih =>
    obtain ⟨j, rest, rfl, hj, hrest⟩ := h
    obtain ⟨rnd2, hrnd2⟩ := ih rest hrest
    refine ⟨fun n => match n with
      | 0 => ⟨j, i + 1 + 1, by omega⟩
      | n + 1 => rnd2 n, ?_⟩
    simp only [shuffleChoices]
    congr 1
    simp [Rand.floorMul]

theorem shuffleBy_perm (i : Nat) (js : List Nat) (copy : List β) :
    (shuffleBy i js copy).Perm copy := by
  induction i generalizing js copy with
  | zero => simp [shuffleBy]
  | succ i ih =>
    cases js with
    | nil => simp [shuffleBy]
    | cons j rest =>
      simp only [shuffleBy]
      exact (ih _ _).trans (swap_perm _ _ _)

/-- The loop entered with the loop variable equal to `i` leaves every
position above `i` as it was. -/
theorem shuffleBy_above (i : Nat) (js : List Nat) (copy : List β) (k : Nat)
    (hv : ValidChoices i js) (hi : i < copy.length) (hk : i < k) :
    (shuffleBy i js copy)[k]? = copy[k]? := by
  induction i generalizing js copy with
  | zero =>
    rw [hv]
    rfl
  | succ i ih =>
    obtain ⟨j, rest, rfl, hj, hrest⟩ := hv
    simp only [shuffleBy]
    rw [ih rest _ hrest (by rw [swap_length]; omega) (by omega),
      swap_getElem? copy (i + 1) j k hi (by omega)]
    rw [if_neg (by omega), if_neg (by omega)]

/-- The first iteration decides the last position it can reach: the element
at the chosen position moves there and stays. -/
theorem shuffleBy_top (i j : Nat) (rest : List Nat) (copy : List β)
    (hv : ValidChoices i rest) (hj : j ≤ i + 1) (hi : i + 1 < copy.length) :
    (shuffleBy (i + 1) (j :: rest) copy)[i + 1]? = copy[j]? := by
  simp only [shuffleBy]
  rw [shuffleBy_above i rest _ (i + 1) hv (by rw [swap_length]; omega) (by omega),
    swap_getElem? copy (i + 1) j (i + 1) hi (by omega)]
  by_cases e : i + 1 = j
  · rw [if_pos e, e]
  · rw [if_neg e, if_pos rfl]

theorem shuffleBy_injective (i : Nat) (js1 js2 : List Nat) (copy : List β)
    (hn : copy.Nodup) (hi : i < copy.length) (h1 : ValidChoices i js1)
    (h2 : ValidChoices i js2) (heq : shuffleBy i js1 copy = shuffleBy i js2 copy) :
    js1 = js2 := by
  induction i generalizing js1 js2 copy with
  | zero =>
    rw [h1, h2]
  | succ i ih =>
    obtain ⟨j1, r1, rfl, hj1, hr1⟩ := h1
    obtain ⟨j2, r2, rfl, hj2, hr2⟩ := h2
    have t1 := shuffleBy_top i j1 r1 copy hr1 hj1 hi
    have t2 := shuffleBy_top i j2 r2 copy hr2 hj2 hi
    rw [heq, t2] at t1
    have hj2lt : j2 < copy.length := by omega
    rw [List.getElem?_eq_getElem hj2lt] at t1
    have hjj : j2 = j1 :=
      nodup_getElem?_inj hn (List.getElem?_eq_getElem hj2lt) t1.symm
    subst hjj
    simp only [shuffleBy] at heq
    have hr := ih r1 r2 (swap copy (i + 1) j2) ((swap_perm _ _ _).nodup_iff.mpr hn)
      (by rw [swap_length]; omega) hr1 hr2 heq
    rw [hr]

end Choices

section ChoicesOnto

variable {β : Type}

/-- In a permutation that agrees with the array above position `i`, the
element at position `i` comes from a position of the array up to `i`. -/
theorem exists_choice (i : Nat) (copy l : List β) (hn : copy.Nodup) (hi : i < copy.length)
    (hp : l.Perm copy) (hab : ∀ k, i < k → l[k]? = copy[k]?) :
    ∃ p, p ≤ i ∧ copy[p]? = l[i]? := by
  have hil : i < l.length := by rw [hp.length_eq]; exact hi
  have hmem : l[i] ∈ copy := hp.mem_iff.mp (List.getElem_mem hil)
  obtain ⟨p, hpc⟩ := List.mem_iff_getElem?.mp hmem
  refine ⟨p, ?_, by rw [hpc, List.getElem?_eq_getElem hil]⟩
  by_contra hgt
  have hlp : l[p]? = some l[i] := by rw [hab p (by omega), hpc]
  have hln : l.Nodup := hp.nodup_iff.mpr hn
  have := nodup_getElem?_inj hln hlp (List.getElem?_eq_getElem hil)
  omega

theorem shuffleBy_surjective (i : Nat) (copy l : List β) (hn : copy.Nodup)
    (hi : i < copy.length) (hp : l.Perm copy) (hab : ∀ k, i < k → l[k]? = copy[k]?) :
    ∃ js, ValidChoices i js ∧ shuffleBy i js copy = l := by
  induction i generalizing copy with
  | zero =>
    obtain ⟨p, hp0, hpc⟩ := exists_choice 0 copy l hn hi hp hab
    have hp00 : p = 0 := by omega
    subst hp00
    refine ⟨[], rfl, ?_⟩
    apply List.ext_getElem?
    intro k
    cases k with
    | zero => exact hpc
    | succ k => exact (hab (k + 1) (by omega)).symm
  | succ i ih =>
    obtain ⟨p, hpi, hpc⟩ := exists_choice (i + 1) copy l hn hi hp hab
    have hab2 : ∀ k, i < k → l[k]? = (swap copy (i + 1) p)[k]? := by
      intro k hk
      rw [swap_getElem? copy (i + 1) p k hi (by omega)]
      by_cases hkp : k = p
      · rw [if_pos hkp]
        have hk1 : k = i + 1 := by omega
        rw [hk1, hpc.symm, ← hkp, hk1]
      · rw [if_neg hkp]
        by_cases hk1 : k = i + 1
        · rw [if_pos hk1, hk1, hpc]
        · rw [if_neg hk1]
          exact hab k (by omega)
    obtain ⟨js, hjs, hres⟩ := ih (swap copy (i + 1) p)
      ((swap_perm _ _ _).nodup_iff.mpr hn) (by rw [swap_length]; omega)
      (hp.trans (swap_perm _ _ _).symm) hab2
    exact ⟨p :: js, ⟨p, js, rfl, hpi, hjs⟩, by simp only [shuffleBy, hres]⟩

end ChoicesOnto

/-! ## Helper lemmas: the query of a reply request -/

section Query

variable {α : Type}

theorem buildContext_after_user_turn (s : Session α) (text : String) :
    (buildContext (addMessage s (some text) "user") text).1 =
      expectedQuery s.conversation text := by
  simp only [buildContext, sliceLast, addMessage, List.length_append, List.length_singleton,
    expectedQuery]
  rw [join_eq_intercalate]
  have e : (s.conversation ++ [({ text := some text, sender := "user" } : Turn)]).drop
      (s.conversation.length + 1 - 6) =
      s.conversation.drop (s.conversation.length - 5) ++
        [({ text := some text, sender := "user" } : Turn)] := by
    have h5 : s.conversation.length + 1 - 6 = s.conversation.length - 5 := by omega
    rw [h5]
    exact List.drop_append_of_le_length (by omega)
  rw [e, List.map_append, List.append_assoc]
  congr 2
  · apply List.map_congr_left
    intro turn _
    unfold renderTurn
    split_ifs <;> rfl

end Query

/-! ## Claims -/

/-- C7: for every input list, the empty list and singletons included, and
every sequence of random choices, `shuffle` returns a permutation of its
input: the same length and the same multiset of elements. -/
theorem shuffle_returns_permutation {β : Type} (array : List β) (rnd : RandomSource) :
    (shuffle array rnd).1.length = array.length ∧ (shuffle array rnd).1.Perm array :=
  ⟨(shuffle_perm array rnd).length_eq, shuffle_perm array rnd⟩

/-- C1: from a session whose deck is freshly reset (a permutation of the
corpus, as `bootstrap` leaves it), for every sequence of random choices and
every `k`, the draws numbered `k*N+1 .. (k+1)*N` of `drawRandomVerse` return
every corpus entry exactly once. -/
theorem deck_blocks_cover_corpus {α : Type} (s : Session α)
    (h : s.randomDeck.Perm s.OPTIONS) (rnd : RandomSource) (k : Nat) :
    (drawMany s.OPTIONS.length (drawMany (k * s.OPTIONS.length) s rnd).2.1
        (drawMany (k * s.OPTIONS.length) s rnd).2.2).1.Perm (s.OPTIONS.map some) := by
  have hk := drawMany_blocks s rnd (Or.inl h) k
  have hb := drawMany_block (drawMany (k * s.OPTIONS.length) s rnd).2.1
    (drawMany (k * s.OPTIONS.length) s rnd).2.2 (by rw [hk.2]; exact hk.1)
  rw [hk.2] at hb
  exact hb.1

theorem deck_blocks_cover_corpus_witness :
    abcSession.randomDeck.Perm abcSession.OPTIONS ∧
      (drawMany abcSession.OPTIONS.length
          (drawMany (1 * abcSession.OPTIONS.length) abcSession halfSource).2.1
          (drawMany (1 * abcSession.OPTIONS.length) abcSession halfSource).2.2).1.Perm
        (abcSession.OPTIONS.map some) :=
  ⟨by decide, deck_blocks_cover_corpus abcSession (by decide) halfSource 1⟩

/-- C2: whenever some candidate's index is absent from the recency window,
`pickFromRanked` returns the index of the first such candidate of the
ranking, and the window afterwards is the old window with that index
appended, without its oldest entry when the length would exceed 3; nothing
else of the session changes. -/
theorem pick_returns_first_absent {α : Type} (s : Session α)
    (before after : List (Candidate α)) (c : Candidate α)
    (hb : ∀ x ∈ before, x.index ∈ s.recentVerseIndexes)
    (hc : c.index ∉ s.recentVerseIndexes) :
    (pickFromRanked s (before ++ c :: after)).1 = .ok c.index ∧
      (pickFromRanked s (before ++ c :: after)).2 =
        { s with
          recentVerseIndexes :=
            (s.recentVerseIndexes ++ [c.index]).drop
              (if s.recentVerseIndexes.length + 1 > 3 then 1 else 0) } := by
  rw [pickFromRanked_of_absent s before after c hb hc]
  refine ⟨rfl, ?_⟩
  simp only
  rw [← addToRecent_window]
  rfl

theorem pick_returns_first_absent_witness :
    (∀ x ∈ [(⟨2, some 9⟩ : Candidate Int), ⟨0, some 7⟩], x.index ∈ (windowSession [2, 0, 1]).recentVerseIndexes) ∧
      (⟨3, some 5⟩ : Candidate Int).index ∉ (windowSession [2, 0, 1]).recentVerseIndexes ∧
      (pickFromRanked (windowSession [2, 0, 1])
          ([⟨2, some 9⟩, ⟨0, some 7⟩] ++ ⟨3, some 5⟩ :: [⟨1, some 4⟩])).1 = .ok 3 ∧
      (pickFromRanked (windowSession [2, 0, 1])
          ([⟨2, some 9⟩, ⟨0, some 7⟩] ++ ⟨3, some 5⟩ :: [⟨1, some 4⟩])).2.recentVerseIndexes =
        [0, 1, 3] := by
  have h := pick_returns_first_absent (windowSession [2, 0, 1])
    [⟨2, some 9⟩, ⟨0, some 7⟩] [⟨1, some 4⟩] ⟨3, some 5⟩ (by decide) (by decide)
  exact ⟨by decide, by decide, h.1, by rw [h.2]; rfl⟩

/-- C3: for every non-empty ranking whose candidates' indices are all in
the recency window, `pickFromRanked` returns the index of the top-ranked
candidate and still appends it to the window (dropping the oldest entry
when the length would exceed 3), whether or not the window already holds
it. -/
theorem pick_falls_back_on_top {α : Type} (s : Session α) (top : Candidate α)
    (rest : List (Candidate α))
    (h : ∀ x ∈ top :: rest, x.index ∈ s.recentVerseIndexes) :
    (pickFromRanked s (top :: rest)).1 = .ok top.index ∧
      (pickFromRanked s (top :: rest)).2 =
        { s with
          recentVerseIndexes :=
            (s.recentVerseIndexes ++ [top.index]).drop
              (if s.recentVerseIndexes.length + 1 > 3 then 1 else 0) } := by
  rw [pickFromRanked_of_all_present s top rest h]
  refine ⟨rfl, ?_⟩
  simp only
  rw [← addToRecent_window]
  rfl

theorem pick_falls_back_on_top_witness :
    (∀ x ∈ [(⟨1, some 8⟩ : Candidate Int), ⟨0, some 6⟩], x.index ∈ (windowSession [0, 1]).recentVerseIndexes) ∧
      (pickFromRanked (windowSession [0, 1]) [⟨1, some 8⟩, ⟨0, some 6⟩]).1 = .ok 1 ∧
      (pickFromRanked (windowSession [0, 1]) [⟨1, some 8⟩, ⟨0, some 6⟩]).2.recentVerseIndexes =
        [0, 1, 1] := by
  have h := pick_falls_back_on_top (windowSession [0, 1]) ⟨1, some 8⟩ [⟨0, some 6⟩] (by decide)
  exact ⟨by decide, h.1, by rw [h.2]; rfl⟩

/-- C4: for every query vector and every embedding index of `N` vectors of
the query's dimension, the ranked list built in `chooseVerse` holds each
index `0..N-1` exactly once, pairs index `i` with the dot product of the
query and the `i`-th embedding vector, which is what `cosineSimilarity`
computes, and is ordered by non-increasing score. -/
theorem ranked_is_scored_and_sorted {α : Type} [LinearOrderedRing α] (data : List α)
    (verseEmbeddings : List (List α))
    (hdim : ∀ v ∈ verseEmbeddings, v.length = data.length) :
    ((rankVerses data verseEmbeddings).map fun c => c.index).Perm
        (List.range verseEmbeddings.length) ∧
      (∀ c ∈ rankVerses data verseEmbeddings, ∃ v, verseEmbeddings[c.index]? = some v ∧
        cosineSimilarity data v = some (dotProduct data v) ∧
        c.score = some (dotProduct data v)) ∧
      (rankVerses data verseEmbeddings).Pairwise ScoreGe := by
  refine ⟨rankVerses_index_perm data verseEmbeddings, ?_, rankVerses_sorted data verseEmbeddings hdim⟩
  intro c hc
  obtain ⟨v, hv, hs⟩ := rankVerses_score data verseEmbeddings hdim c hc
  exact ⟨v, hv, cosineSimilarity_eq_dotProduct data v (hdim v (List.getElem?_mem hv)), hs⟩

theorem ranked_is_scored_and_sorted_witness :
    (∀ v ∈ [[1, 0], [0, 1], [1, 0], [2, 0]], v.length = [(1 : Int), 0].length) ∧
      ((rankVerses [(1 : Int), 0] [[1, 0], [0, 1], [1, 0], [2, 0]]).map fun c => c.index).Perm
        (List.range [[(1 : Int), 0], [0, 1], [1, 0], [2, 0]].length) ∧
      (∀ c ∈ rankVerses [(1 : Int), 0] [[1, 0], [0, 1], [1, 0], [2, 0]],
        ∃ v, [[1, 0], [0, 1], [1, 0], [2, 0]][c.index]? = some v ∧
          cosineSimilarity [(1 : Int), 0] v = some (dotProduct [(1 : Int), 0] v) ∧
          c.score = some (dotProduct [(1 : Int), 0] v)) ∧
      (rankVerses [(1 : Int), 0] [[1, 0], [0, 1], [1, 0], [2, 0]]).Pairwise ScoreGe :=
  ⟨by decide, ranked_is_scored_and_sorted [(1 : Int), 0] [[1, 0], [0, 1], [1, 0], [2, 0]]
    (by decide)⟩

/-- C5: in the ranked list built in `chooseVerse` over vectors of the
query's dimension, any two entries with equal score stand in increasing
corpus-index order; in particular, when all embedding vectors are the same
vector the ranking is `0, 1, ..., N-1`. -/
theorem ranked_ties_keep_index_order {α : Type} [LinearOrderedRing α] (data : List α)
    (verseEmbeddings : List (List α))
    (hdim : ∀ v ∈ verseEmbeddings, v.length = data.length) :
    (rankVerses data verseEmbeddings).Pairwise
        (fun a b => a.score = b.score → a.index < b.index) ∧
      (∀ v, verseEmbeddings = List.replicate verseEmbeddings.length v →
        (rankVerses data verseEmbeddings).map (fun c => c.index) =
          List.range verseEmbeddings.length) := by
  refine ⟨rankVerses_stable data verseEmbeddings, ?_⟩
  intro v hv
  have _ := hdim
  rw [hv, List.length_replicate]
  exact rankVerses_replicate data v _

theorem ranked_ties_keep_index_order_witness :
    (∀ v ∈ [[1, 0], [1, 0], [1, 0]], v.length = [(1 : Int), 0].length) ∧
      (rankVerses [(1 : Int), 0] [[1, 0], [1, 0], [1, 0]]).Pairwise
        (fun a b => a.score = b.score → a.index < b.index) ∧
      (∀ v, [[(1 : Int), 0], [1, 0], [1, 0]] =
          List.replicate [[(1 : Int), 0], [1, 0], [1, 0]].length v →
        (rankVerses [(1 : Int), 0] [[1, 0], [1, 0], [1, 0]]).map (fun c => c.index) =
          List.range [[(1 : Int), 0], [1, 0], [1, 0]].length) :=
  ⟨by decide, ranked_ties_keep_index_order [(1 : Int), 0] [[1, 0], [1, 0], [1, 0]] (by decide)⟩

/-- C6: for every list of strings, `dedupePreserveOrder` returns, in their
original order and untrimmed, exactly the items whose trimmed value is
non-empty and differs from the trimmed value of every earlier item; and
`dedupe(["  hi ", "hi", "bye", "", "  "]) = ["  hi ", "bye"]`. -/
theorem dedupe_keeps_first_of_each_key :
    (∀ array : List String, dedupePreserveOrder array = itemsWithFreshKey [] array) ∧
      dedupePreserveOrder ["  hi ", "hi", "bye", "", "  "] = ["  hi ", "bye"] := by
  refine ⟨?_, by decide⟩
  intro array
  unfold dedupePreserveOrder
  rw [dedupeLoop_eq array [] [] []]
  · simp
  · simp

/-- C8: for every conversation log and prompt text, `buildContext` returns
the newline-joined lines made of the last `min 6 length` turns of the log,
oldest first, each rendered as `Utente: <text>` for a user turn and
`Bot: <text>` otherwise, followed by the line `Utente: <prompt>`; the
session, its log included, is left as it was. -/
theorem buildContext_renders_last_six {α : Type} (s : Session α) (promptText : String) :
    ∃ older recent : List Turn,
      s.conversation = older ++ recent ∧
      recent.length = min 6 s.conversation.length ∧
      (buildContext s promptText).1 =
        "\n".intercalate (recent.map renderTurn ++ ["Utente: " ++ promptText]) ∧
      (buildContext s promptText).2 = s := by
  refine ⟨s.conversation.take (s.conversation.length - 6),
    s.conversation.drop (s.conversation.length - 6), ?_, ?_, ?_, rfl⟩
  · exact (List.take_append_drop _ _).symm
  · rw [List.length_drop]
    omega
  · simp only [buildContext, sliceLast]
    rw [join_eq_intercalate]
    congr 2
    apply List.map_congr_left
    intro turn _
    unfold renderTurn
    split_ifs <;> rfl

/-- C9: in every session reachable after `bootstrap`, a reply request with
a non-blank message produces a reply that is an element of the corpus,
whatever the embedder answers (any vector, or a failure) and whatever the
random choices; the random path never pops an empty deck, and on the
semantic path the ranking is non-empty and the picked index is inside the
corpus. -/
theorem every_request_gets_a_verse {α : Type} [LinearOrderedRing α] (s : Session α)
    (hs : Reachable s) :
    (∀ (inputValue : String) (embed : String → EmbedOutcome α) (rnd : RandomSource),
        jsTrim inputValue ≠ "" →
        ∃ v, (submitHandler s inputValue embed rnd).1 = some (some v) ∧ v ∈ s.OPTIONS) ∧
      (∀ rnd : RandomSource, ∃ v, (drawRandomVerse s rnd).1 = some v ∧ v ∈ s.OPTIONS) ∧
      (∀ data : List α, semanticReady s = true →
        rankVerses data s.verseEmbeddings ≠ [] ∧
        ∃ i v, i < s.OPTIONS.length ∧ s.OPTIONS[i]? = some v ∧
          chooseVerseResume s data = (.ok (some v), addToRecent s i)) := by
  have hinv := reachable_inv s hs
  refine ⟨?_, fun rnd => drawRandomVerse_mem s rnd hinv, ?_⟩
  · intro inputValue embed rnd htext
    have hinv0 : CorpusInv (addMessage s (some (jsTrim inputValue)) "user") := hinv
    rcases submitHandler_cases s inputValue embed rnd htext with
      ⟨_, h⟩ | ⟨_, _, h⟩ | ⟨hready, data, _, ⟨verse, hv, h⟩ | ⟨e, he, _⟩⟩
    · rw [h]
      obtain ⟨v, hv, hmem⟩ := drawRandomVerse_mem _ rnd.next hinv0
      exact ⟨v, by simp only [hv], hmem⟩
    · rw [h]
      obtain ⟨v, hv, hmem⟩ := drawRandomVerse_mem _ rnd.next hinv0
      exact ⟨v, by simp only [hv], hmem⟩
    · obtain ⟨_, i, v, _, _, hmem, hres⟩ := chooseVerseResume_ok _ data hready hinv0.1
      rw [hres] at hv
      cases hv
      exact ⟨v, by rw [h], hmem⟩
    · obtain ⟨_, i, v, _, _, _, hres⟩ := chooseVerseResume_ok _ data hready hinv0.1
      rw [hres] at he
      cases he
  · intro data hready
    obtain ⟨hne, i, v, hi, hv, _, hres⟩ := chooseVerseResume_ok s data hready hinv.1
    exact ⟨hne, i, v, hi, hv, hres⟩

theorem every_request_gets_a_verse_witness :
    Reachable readySession ∧
      ((∀ (inputValue : String) (embed : String → EmbedOutcome Int) (rnd : RandomSource),
          jsTrim inputValue ≠ "" →
          ∃ v, (submitHandler readySession inputValue embed rnd).1 = some (some v) ∧
            v ∈ readySession.OPTIONS) ∧
        (∀ rnd : RandomSource,
          ∃ v, (drawRandomVerse readySession rnd).1 = some v ∧ v ∈ readySession.OPTIONS) ∧
        (∀ data : List Int, semanticReady readySession = true →
          rankVerses data readySession.verseEmbeddings ≠ [] ∧
          ∃ i v, i < readySession.OPTIONS.length ∧ readySession.OPTIONS[i]? = some v ∧
            chooseVerseResume readySession data = (.ok (some v), addToRecent readySession i))) :=
  ⟨Reachable.boot _ _ _ _, every_request_gets_a_verse readySession (Reachable.boot _ _ _ _)⟩

/-- C10: when semantic mode is ready and the query-embedding call of a reply
request fails, the reply of that request is the result of
`drawRandomVerse`; the readiness flag, the embedder, the embedding index,
the corpus and the recency window are left as they were, so the session is
still ready and the next request calls the embedder again. -/
theorem embed_failure_falls_back_once {α : Type} [LinearOrderedRing α] (s : Session α)
    (inputValue : String) (embed : String → EmbedOutcome α) (rnd : RandomSource)
    (hready : semanticReady s = true) (htext : jsTrim inputValue ≠ "")
    (hfail : embed (buildContext (addMessage s (some (jsTrim inputValue)) "user")
      (jsTrim inputValue)).1 = none) :
    (submitHandler s inputValue embed rnd).1 =
        some (drawRandomVerse (addMessage s (some (jsTrim inputValue)) "user") rnd.next).1 ∧
      (submitHandler s inputValue embed rnd).2.1.modelReady = s.modelReady ∧
      (submitHandler s inputValue embed rnd).2.1.embedder = s.embedder ∧
      (submitHandler s inputValue embed rnd).2.1.verseEmbeddings = s.verseEmbeddings ∧
      (submitHandler s inputValue embed rnd).2.1.OPTIONS = s.OPTIONS ∧
      (submitHandler s inputValue embed rnd).2.1.recentVerseIndexes = s.recentVerseIndexes ∧
      semanticReady (submitHandler s inputValue embed rnd).2.1 = true ∧
      (∀ (promptText : String) (embed2 : String → EmbedOutcome α) (rnd2 : RandomSource)
          (data : List α),
        embed2 (buildContext (submitHandler s inputValue embed rnd).2.1 promptText).1 =
            some data →
          chooseVerse (submitHandler s inputValue embed rnd).2.1 promptText embed2 rnd2 =
            ((chooseVerseResume (submitHandler s inputValue embed rnd).2.1 data).1,
              (chooseVerseResume (submitHandler s inputValue embed rnd).2.1 data).2, rnd2)) := by
  have hready0 : semanticReady (addMessage s (some (jsTrim inputValue)) "user") = true := hready
  have hsub : submitHandler s inputValue embed rnd =
      (some (drawRandomVerse (addMessage s (some (jsTrim inputValue)) "user") rnd.next).1,
        addMessage (drawRandomVerse (addMessage s (some (jsTrim inputValue)) "user") rnd.next).2.1
          (drawRandomVerse (addMessage s (some (jsTrim inputValue)) "user") rnd.next).1 "bot",
        (drawRandomVerse (addMessage s (some (jsTrim inputValue)) "user") rnd.next).2.2) := by
    rcases submitHandler_cases s inputValue embed rnd htext with
      ⟨hn, _⟩ | ⟨_, _, h⟩ | ⟨_, data, hd, _⟩
    · rw [hready0] at hn
      cases hn
    · exact h
    · rw [hfail] at hd
      cases hd
  obtain ⟨fo, _, fe, fv, fm, fr⟩ :=
    drawRandomVerse_frame (addMessage s (some (jsTrim inputValue)) "user") rnd.next
  have hm : (submitHandler s inputValue embed rnd).2.1.modelReady = s.modelReady := by
    rw [hsub]; exact fm
  have he : (submitHandler s inputValue embed rnd).2.1.embedder = s.embedder := by
    rw [hsub]; exact fe
  have hv : (submitHandler s inputValue embed rnd).2.1.verseEmbeddings = s.verseEmbeddings := by
    rw [hsub]; exact fv
  have ho : (submitHandler s inputValue embed rnd).2.1.OPTIONS = s.OPTIONS := by
    rw [hsub]; exact fo
  have hr : (submitHandler s inputValue embed rnd).2.1.recentVerseIndexes =
      s.recentVerseIndexes := by
    rw [hsub]; exact fr
  have hready2 : semanticReady (submitHandler s inputValue embed rnd).2.1 = true := by
    rw [semanticReady_iff, hm, he, hv, ho]
    exact (semanticReady_iff s).mp hready
  refine ⟨by rw [hsub], hm, he, hv, ho, hr, hready2, ?_⟩
  intro promptText embed2 rnd2 data hdata
  rw [chooseVerse_of_ready _ promptText embed2 rnd2 hready2, hdata]

theorem embed_failure_falls_back_once_witness :
    semanticReady readySession = true ∧ jsTrim "ciao" ≠ "" ∧
      (submitHandler readySession "ciao" (fun _ => none) halfSource).1 =
        some (drawRandomVerse (addMessage readySession (some (jsTrim "ciao")) "user")
          halfSource.next).1 ∧
      (submitHandler readySession "ciao" (fun _ => none) halfSource).2.1.modelReady = true ∧
      (submitHandler readySession "ciao" (fun _ => none) halfSource).2.1.recentVerseIndexes =
        readySession.recentVerseIndexes ∧
      semanticReady (submitHandler readySession "ciao" (fun _ => none) halfSource).2.1 = true := by
  have h := embed_failure_falls_back_once readySession "ciao" (fun _ => none) halfSource
    (by decide) (by decide) rfl
  exact ⟨by decide, by decide, h.1, h.2.1.trans (by decide), h.2.2.2.2.2.1, h.2.2.2.2.2.2.1⟩

/-- The corpus after `bootstrap`, case by case: at least one entry, entries
non-empty and pairwise distinct; the built-in single entry when the load
fails or the text has no non-blank line, and otherwise the trimmed
non-blank lines of the text, split at LF with a CR before it dropped,
without their later duplicates. -/
theorem bootstrap_corpus_cases {α : Type} (response : Option String) (pipelineOk : Bool)
    (embed : Nat → String → EmbedOutcome α) (rnd : RandomSource) :
    1 ≤ (bootstrap (initialSession α) response pipelineOk embed rnd).1.OPTIONS.length ∧
      (∀ v ∈ (bootstrap (initialSession α) response pipelineOk embed rnd).1.OPTIONS, v ≠ "") ∧
      (bootstrap (initialSession α) response pipelineOk embed rnd).1.OPTIONS.Nodup ∧
      (response = none →
        (bootstrap (initialSession α) response pipelineOk embed rnd).1.OPTIONS =
          DEFAULT_VERSES) ∧
      (∀ text, response = some text →
        (∀ line ∈ splitLines text.data, Char.ofNat 0x0A ∉ line) ∧
        List.intercalate [Char.ofNat 0x0A] (splitLines text.data) = stripCrBeforeLf text.data ∧
        ((∀ line ∈ splitLines text.data, jsTrim ⟨line⟩ = "") →
          (bootstrap (initialSession α) response pipelineOk embed rnd).1.OPTIONS =
            DEFAULT_VERSES) ∧
        ((∃ line ∈ splitLines text.data, jsTrim ⟨line⟩ ≠ "") →
          (bootstrap (initialSession α) response pipelineOk embed rnd).1.OPTIONS =
            keepFirstOccurrences []
              (((splitLines text.data).map fun l => jsTrim ⟨l⟩).filter fun l => l ≠ ""))) := by
  rw [bootstrap_OPTIONS]
  have hd : 1 ≤ DEFAULT_VERSES.length ∧ (∀ v ∈ DEFAULT_VERSES, v ≠ "") ∧ DEFAULT_VERSES.Nodup := by
    decide
  cases response with
  | none =>
    refine ⟨hd.1, hd.2.1, hd.2.2, fun _ => rfl, ?_⟩
    intro text h
    cases h
  | some text =>
    have hload : loadVerses (some text) =
        some (((splitLines text.data).map fun l => jsTrim ⟨l⟩).filter fun l => l ≠ "") := rfl
    simp only [hload, dedupePreserveOrder_of_lines]
    obtain ⟨lines, hlines⟩ : ∃ lines, lines =
        (((splitLines text.data).map fun l => jsTrim ⟨l⟩).filter fun l => l ≠ "") := ⟨_, rfl⟩
    rw [← hlines]
    have hblank : (∀ line ∈ splitLines text.data, jsTrim ⟨line⟩ = "") ↔ lines = [] := by
      rw [hlines, List.filter_eq_nil_iff]
      simp
    by_cases hnil : lines = []
    · have hk : keepFirstOccurrences [] lines = [] := (keepFirstOccurrences_eq_nil lines).mpr hnil
      have hz : ¬((keepFirstOccurrences [] lines).length ≠ 0) := by simp [hk]
      simp only [if_neg hz]
      refine ⟨hd.1, hd.2.1, hd.2.2, fun _ => rfl, ?_⟩
      intro text2 h2
      cases h2
      refine ⟨splitLines_no_lf _, splitLines_intercalate _, fun _ => rfl, ?_⟩
      rintro ⟨line, hl, hne⟩
      exact absurd (hblank.mpr hnil line hl) hne
    · have hk : keepFirstOccurrences [] lines ≠ [] :=
        fun h => hnil ((keepFirstOccurrences_eq_nil lines).mp h)
      have hlen : (keepFirstOccurrences [] lines).length ≠ 0 := by
        simpa using hk
      simp only [if_pos hlen]
      refine ⟨Nat.pos_of_ne_zero hlen, ?_, keepFirstOccurrences_nodup _ _, ?_, ?_⟩
      · intro v hv
        have hv2 := (keepFirstOccurrences_mem _ _ _ hv).1
        rw [hlines] at hv2
        exact (loadVerses_lines text v hv2).2
      · intro h
        cases h
      · intro text2 h2
        cases h2
        refine ⟨splitLines_no_lf _, splitLines_intercalate _, ?_, fun _ => by rw [hlines]⟩
        intro hall
        exact absurd (hblank.mp hall) hnil

/-- C11, counterexample: the file whose only line is the built-in verse
loads, has a non-blank line, and yet leaves the built-in single entry as the
corpus, so the corpus is not the built-in entry only when the load fails or
the text has no non-blank line. -/
theorem default_corpus_from_loaded_file :
    ¬((bootstrap (initialSession Int) (some "Sarai come ossigeno.") false (fun _ _ => none)
          halfSource).1.OPTIONS = DEFAULT_VERSES ↔
        ((some "Sarai come ossigeno." : Option String) = none ∨
          ∀ line ∈ splitLines "Sarai come ossigeno.".data, jsTrim ⟨line⟩ = "")) := by
  decide

/-- C11, amended: for every outcome of the corpus load, the corpus after
`bootstrap` has at least one entry and its entries are non-empty and pairwise
distinct; it is the built-in single entry when the load fails or the text
has no non-blank line, and otherwise the trimmed non-blank lines of the
text, split at LF with a CR before it dropped, without their later
duplicates; so it equals the built-in single entry exactly when the load
fails, the text has no non-blank line, or that list of lines is itself the
built-in single entry. -/
theorem corpus_after_bootstrap {α : Type} (response : Option String) (pipelineOk : Bool)
    (embed : Nat → String → EmbedOutcome α) (rnd : RandomSource) :
    1 ≤ (bootstrap (initialSession α) response pipelineOk embed rnd).1.OPTIONS.length ∧
      (∀ v ∈ (bootstrap (initialSession α) response pipelineOk embed rnd).1.OPTIONS, v ≠ "") ∧
      (bootstrap (initialSession α) response pipelineOk embed rnd).1.OPTIONS.Nodup ∧
      (response = none →
        (bootstrap (initialSession α) response pipelineOk embed rnd).1.OPTIONS =
          DEFAULT_VERSES) ∧
      (∀ text, response = some text →
        (∀ line ∈ splitLines text.data, Char.ofNat 0x0A ∉ line) ∧
        List.intercalate [Char.ofNat 0x0A] (splitLines text.data) = stripCrBeforeLf text.data ∧
        ((∀ line ∈ splitLines text.data, jsTrim ⟨line⟩ = "") →
          (bootstrap (initialSession α) response pipelineOk embed rnd).1.OPTIONS =
            DEFAULT_VERSES) ∧
        ((∃ line ∈ splitLines text.data, jsTrim ⟨line⟩ ≠ "") →
          (bootstrap (initialSession α) response pipelineOk embed rnd).1.OPTIONS =
            keepFirstOccurrences []
              (((splitLines text.data).map fun l => jsTrim ⟨l⟩).filter fun l => l ≠ ""))) ∧
      ((bootstrap (initialSession α) response pipelineOk embed rnd).1.OPTIONS = DEFAULT_VERSES ↔
        (response = none ∨
          ∃ text, response = some text ∧
            ((∀ line ∈ splitLines text.data, jsTrim ⟨line⟩ = "") ∨
              keepFirstOccurrences []
                (((splitLines text.data).map fun l => jsTrim ⟨l⟩).filter fun l => l ≠ "") =
                DEFAULT_VERSES))) := by
  obtain ⟨h1, h2, h3, h4, h5⟩ := bootstrap_corpus_cases response pipelineOk embed rnd
  refine ⟨h1, h2, h3, h4, h5, ?_, ?_⟩
  · intro hdef
    cases response with
    | none => exact Or.inl rfl
    | some text =>
      right
      refine ⟨text, rfl, ?_⟩
      by_cases hall : ∀ line ∈ splitLines text.data, jsTrim ⟨line⟩ = ""
      · exact Or.inl hall
      · right
        have hex : ∃ line ∈ splitLines text.data, jsTrim ⟨line⟩ ≠ "" := by
          by_contra hno
          apply hall
          intro line hl
          by_contra hne
          exact hno ⟨line, hl, hne⟩
        rw [← (h5 text rfl).2.2.2 hex]
        exact hdef
  · rintro (hnone | ⟨text, htext, hall | hkeep⟩)
    · exact h4 hnone
    · exact (h5 text htext).2.2.1 hall
    · by_cases hall : ∀ line ∈ splitLines text.data, jsTrim ⟨line⟩ = ""
      · exact (h5 text htext).2.2.1 hall
      · have hex : ∃ line ∈ splitLines text.data, jsTrim ⟨line⟩ ≠ "" := by
          by_contra hno
          apply hall
          intro line hl
          by_contra hne
          exact hno ⟨line, hl, hne⟩
        rw [(h5 text htext).2.2.2 hex]
        exact hkeep

/-- C12, counterexample: on the corpus `A`, `B` the second and third draw
after `bootstrap` both return `A`, so these two consecutive draws are not a
permutation of the corpus. -/
theorem consecutive_draws_can_repeat :
    (drawMany abSession.OPTIONS.length (drawMany 1 abSession zeroSource).2.1
        (drawMany 1 abSession zeroSource).2.2).1 = [some "A", some "A"] ∧
      ¬(drawMany abSession.OPTIONS.length (drawMany 1 abSession zeroSource).2.1
        (drawMany 1 abSession zeroSource).2.2).1.Perm (abSession.OPTIONS.map some) := by
  decide

/-- C12, amended: for every corpus of size `N` and every sequence of random
choices, `N` consecutive calls of `drawRandomVerse` that start when the deck
is empty or holds the whole corpus return exactly a permutation of the
corpus, and leave the deck empty, so that the next `N` calls do so again. -/
theorem draws_from_block_boundary {α : Type} (s : Session α) (rnd : RandomSource)
    (h : s.randomDeck = [] ∨ s.randomDeck.Perm s.OPTIONS) :
    (drawMany s.OPTIONS.length s rnd).1.Perm (s.OPTIONS.map some) ∧
      (drawMany s.OPTIONS.length s rnd).2.1.randomDeck = [] ∧
      (drawMany s.OPTIONS.length s rnd).2.1.OPTIONS = s.OPTIONS :=
  drawMany_block s rnd h.symm

theorem draws_from_block_boundary_witness :
    ((drawMany 2 abSession zeroSource).2.1.randomDeck = [] ∨
        (drawMany 2 abSession zeroSource).2.1.randomDeck.Perm
          (drawMany 2 abSession zeroSource).2.1.OPTIONS) ∧
      ((drawMany (drawMany 2 abSession zeroSource).2.1.OPTIONS.length
          (drawMany 2 abSession zeroSource).2.1 (drawMany 2 abSession zeroSource).2.2).1.Perm
          ((drawMany 2 abSession zeroSource).2.1.OPTIONS.map some) ∧
        (drawMany (drawMany 2 abSession zeroSource).2.1.OPTIONS.length
          (drawMany 2 abSession zeroSource).2.1
          (drawMany 2 abSession zeroSource).2.2).2.1.randomDeck = [] ∧
        (drawMany (drawMany 2 abSession zeroSource).2.1.OPTIONS.length
          (drawMany 2 abSession zeroSource).2.1
          (drawMany 2 abSession zeroSource).2.2).2.1.OPTIONS =
          (drawMany 2 abSession zeroSource).2.1.OPTIONS) :=
  ⟨Or.inl (by decide), draws_from_block_boundary _ _ (Or.inl (by decide))⟩

/-- C13: in every session that follows `bootstrap`, whenever `modelReady` is
true the embedding index has the length of the corpus and its `i`-th vector
is the embedder's answer to the `i`-th corpus entry in the `i`-th warm-up
call; and after a warm-up in which the pipeline loads and every verse is
embedded the flag is true, in that session and in every later one. -/
theorem ready_index_matches_corpus {α : Type} [LinearOrderedRing α]
    (response : Option String) (pipelineOk : Bool) (embed : Nat → String → EmbedOutcome α)
    (rnd : RandomSource) (s : Session α)
    (h : Later (bootstrap (initialSession α) response pipelineOk embed rnd).1 s) :
    (s.modelReady = true →
        s.verseEmbeddings.length = s.OPTIONS.length ∧
        ∀ i verse, s.OPTIONS[i]? = some verse →
          ∃ data, embed i verse = some data ∧ s.verseEmbeddings[i]? = some data) ∧
      (pipelineOk = true →
        (∀ i verse, s.OPTIONS[i]? = some verse → ∃ data, embed i verse = some data) →
        s.modelReady = true) := by
  obtain ⟨ho, hv, hm, _⟩ := later_frame _ s h
  obtain ⟨s1, hs1⟩ : ∃ s1, (bootstrap (initialSession α) response pipelineOk embed rnd).1 =
      warmupEmbeddings s1 pipelineOk embed := ⟨_, rfl⟩
  rw [hs1] at ho hv hm
  have hopt := (warmupEmbeddings_frame s1 pipelineOk embed).1
  obtain ⟨hiff, hidx⟩ := warmupEmbeddings_spec s1 pipelineOk embed
  rw [ho, hv, hm, hopt]
  refine ⟨fun hr => ?_, fun hp hall => hiff.mpr ⟨hp, hall⟩⟩
  obtain ⟨_, hl, hall⟩ := hidx hr
  exact ⟨hl, hall⟩

theorem ready_index_matches_corpus_witness :
    Later (bootstrap (initialSession Int) (some "A\nB\nC") true
        (fun i _ => some [(i : Int), 1]) halfSource).1 readySession ∧
      ((readySession.modelReady = true →
          readySession.verseEmbeddings.length = readySession.OPTIONS.length ∧
          ∀ i verse, readySession.OPTIONS[i]? = some verse →
            ∃ data, (fun (i : Nat) (_ : String) => some [(i : Int), 1]) i verse = some data ∧
              readySession.verseEmbeddings[i]? = some data) ∧
        (true = true →
          (∀ i verse, readySession.OPTIONS[i]? = some verse →
            ∃ data, (fun (i : Nat) (_ : String) => some [(i : Int), 1]) i verse = some data) →
          readySession.modelReady = true)) :=
  ⟨Later.start, ready_index_matches_corpus (some "A\nB\nC") true
    (fun i _ => some [(i : Int), 1]) halfSource readySession Later.start⟩

/-- C14: if the pipeline fails to load or the embedder fails on some verse
during warm-up, `modelReady` is false when `bootstrap` ends and in every
later session, so every later reply request is answered by the result of
`drawRandomVerse`, whatever the embedder would answer, and leaves a session
of which the same holds. -/
theorem failed_warmup_is_permanent {α : Type} [LinearOrderedRing α]
    (response : Option String) (pipelineOk : Bool) (embed : Nat → String → EmbedOutcome α)
    (rnd : RandomSource) (s : Session α)
    (hfail : pipelineOk = false ∨
      ∃ i verse, (bootstrap (initialSession α) response pipelineOk embed rnd).1.OPTIONS[i]? =
        some verse ∧ embed i verse = none)
    (h : Later (bootstrap (initialSession α) response pipelineOk embed rnd).1 s) :
    (bootstrap (initialSession α) response pipelineOk embed rnd).1.modelReady = false ∧
      s.modelReady = false ∧
      ∀ (inputValue : String) (embed2 : String → EmbedOutcome α) (rnd2 : RandomSource),
        jsTrim inputValue ≠ "" →
        (submitHandler s inputValue embed2 rnd2).1 =
            some (drawRandomVerse (addMessage s (some (jsTrim inputValue)) "user") rnd2.next).1 ∧
          (∀ embed3 : String → EmbedOutcome α,
            submitHandler s inputValue embed3 rnd2 = submitHandler s inputValue embed2 rnd2) ∧
          Later (bootstrap (initialSession α) response pipelineOk embed rnd).1
            (submitHandler s inputValue embed2 rnd2).2.1 := by
  obtain ⟨_, _, hm, _⟩ := later_frame _ s h
  obtain ⟨s1, hs1⟩ : ∃ s1, (bootstrap (initialSession α) response pipelineOk embed rnd).1 =
      warmupEmbeddings s1 pipelineOk embed := ⟨_, rfl⟩
  have hopt := (warmupEmbeddings_frame s1 pipelineOk embed).1
  obtain ⟨hiff, _⟩ := warmupEmbeddings_spec s1 pipelineOk embed
  have hboot : (bootstrap (initialSession α) response pipelineOk embed rnd).1.modelReady =
      false := by
    rw [hs1]
    cases hb : (warmupEmbeddings s1 pipelineOk embed).modelReady with
    | false => rfl
    | true =>
      obtain ⟨hp, hall⟩ := hiff.mp hb
      rcases hfail with hf | ⟨i, verse, hi, hnone⟩
      · rw [hf] at hp
        cases hp
      · rw [hs1, hopt] at hi
        obtain ⟨d, hd⟩ := hall i verse hi
        rw [hnone] at hd
        cases hd
  have hsm : s.modelReady = false := hm.trans hboot
  have hnr : semanticReady s = false := by
    simp [semanticReady, hsm]
  refine ⟨hboot, hsm, ?_⟩
  intro inputValue embed2 rnd2 htext
  refine ⟨?_, ?_, later_submitHandler _ s h inputValue embed2 rnd2⟩
  · rw [submitHandler_of_not_ready s inputValue embed2 rnd2 htext hnr]
  · intro embed3
    rw [submitHandler_of_not_ready s inputValue embed2 rnd2 htext hnr,
      submitHandler_of_not_ready s inputValue embed3 rnd2 htext hnr]

theorem failed_warmup_is_permanent_witness :
    (false = false ∨
        ∃ i verse, (bootstrap (initialSession Int) (some "A\nB\nC") false (fun _ _ => none)
          halfSource).1.OPTIONS[i]? = some verse ∧
          (fun (_ : Nat) (_ : String) => (none : EmbedOutcome Int)) i verse = none) ∧
      Later (bootstrap (initialSession Int) (some "A\nB\nC") false (fun _ _ => none)
        halfSource).1 abcSession ∧
      abcSession.modelReady = false ∧
      (submitHandler abcSession "ciao" (fun _ => some [1, 1]) halfSource).1 =
        some (drawRandomVerse (addMessage abcSession (some (jsTrim "ciao")) "user")
          halfSource.next).1 :=
  ⟨Or.inl rfl, Later.start,
    (failed_warmup_is_permanent (some "A\nB\nC") false (fun _ _ => none) halfSource abcSession
      (Or.inl rfl) Later.start).2.1,
    ((failed_warmup_is_permanent (some "A\nB\nC") false (fun _ _ => none) halfSource abcSession
      (Or.inl rfl) Later.start).2.2 "ciao" (fun _ => some [1, 1]) halfSource (by decide)).1⟩

/-- C15: `chooseVerse` takes the semantic path (context, embedder call,
ranking, `pickFromRanked`) exactly when `modelReady` is true, the embedder
is present and the embedding index has the length of the corpus; in every
other session it returns the result of `drawRandomVerse`, its outcome does
not depend on the embedder, and the recency window is left as it was. -/
theorem chooseVerse_path_selection {α : Type} [LinearOrderedRing α] (s : Session α)
    (promptText : String) (rnd : RandomSource) :
    (semanticReady s = true ↔
        s.modelReady = true ∧ s.embedder = true ∧
          s.verseEmbeddings.length = s.OPTIONS.length) ∧
      (semanticReady s = true →
        ∀ embed : String → EmbedOutcome α,
          (embed (buildContext s promptText).1 = none →
            chooseVerse s promptText embed rnd = (.error .embedError, s, rnd)) ∧
          (∀ data, embed (buildContext s promptText).1 = some data →
            chooseVerse s promptText embed rnd =
                ((chooseVerseResume s data).1, (chooseVerseResume s data).2, rnd) ∧
              (chooseVerseResume s data).2 =
                (pickFromRanked s (rankVerses data s.verseEmbeddings)).2)) ∧
      (semanticReady s = false →
        ∀ embed : String → EmbedOutcome α,
          chooseVerse s promptText embed rnd =
              (.ok (drawRandomVerse s rnd).1, (drawRandomVerse s rnd).2) ∧
            (chooseVerse s promptText embed rnd).2.1.recentVerseIndexes =
              s.recentVerseIndexes) ∧
      (semanticReady s = true ↔
        ∃ embed1 embed2 : String → EmbedOutcome α,
          chooseVerse s promptText embed1 rnd ≠ chooseVerse s promptText embed2 rnd) := by
  have hsem : ∀ data, (chooseVerseResume s data).2 =
      (pickFromRanked s (rankVerses data s.verseEmbeddings)).2 := by
    intro data
    rcases pickFromRanked_cases s (rankVerses data s.verseEmbeddings) with ⟨_, h⟩ | ⟨c, _, h⟩
    · simp only [chooseVerseResume, h]
    · simp only [chooseVerseResume, h]
  have hres : ∀ data, (chooseVerseResume s data).1 ≠ .error .embedError := by
    intro data
    rcases pickFromRanked_cases s (rankVerses data s.verseEmbeddings) with ⟨_, h⟩ | ⟨c, _, h⟩
    · simp [chooseVerseResume, h]
    · simp [chooseVerseResume, h]
  refine ⟨semanticReady_iff s, ?_, ?_, ?_⟩
  · intro hready embed
    constructor
    · intro hnone
      rw [chooseVerse_of_ready s promptText embed rnd hready, hnone]
    · intro data hdata
      refine ⟨?_, hsem data⟩
      rw [chooseVerse_of_ready s promptText embed rnd hready, hdata]
  · intro hnot embed
    rw [chooseVerse_of_not_ready s promptText embed rnd hnot]
    exact ⟨rfl, (drawRandomVerse_frame s rnd).2.2.2.2.2⟩
  · constructor
    · intro hready
      refine ⟨fun _ => none, fun _ => some [], ?_⟩
      rw [chooseVerse_of_ready s promptText _ rnd hready,
        chooseVerse_of_ready s promptText _ rnd hready]
      intro heq
      have h1 := congrArg Prod.fst heq
      exact hres [] h1.symm
    · rintro ⟨embed1, embed2, hne⟩
      cases hready : semanticReady s with
      | true => rfl
      | false =>
        exfalso
        apply hne
        rw [chooseVerse_of_not_ready s promptText embed1 rnd hready,
          chooseVerse_of_not_ready s promptText embed2 rnd hready]

/-- C16: after any sequence of `pickFromRanked` calls that starts on the
empty window, the recency window has length `min 3 k`, hence at most 3, and
holds, in order of selection, the last `min 3 k` of the `k` indices the
calls have returned. -/
theorem window_holds_last_three {α : Type} (s : Session α)
    (rankings : List (List (Candidate α))) (h : s.recentVerseIndexes = []) :
    (pickMany rankings s).2.recentVerseIndexes.length ≤ 3 ∧
      (pickMany rankings s).2.recentVerseIndexes.length = min 3 (pickMany rankings s).1.length ∧
      (pickMany rankings s).2.recentVerseIndexes =
        (pickMany rankings s).1.drop ((pickMany rankings s).1.length - 3) := by
  have hw := pickMany_window rankings s [] (by simpa using h)
  simp only [List.nil_append] at hw
  refine ⟨?_, ?_, hw⟩
  · rw [hw, List.length_drop]
    omega
  · rw [hw, List.length_drop]
    omega

theorem window_holds_last_three_witness :
    (windowSession []).recentVerseIndexes = [] ∧
      (pickMany [[⟨2, some 9⟩, ⟨0, some 7⟩], [⟨2, some 9⟩, ⟨0, some 7⟩], [],
          [⟨2, some 9⟩, ⟨1, some 7⟩], [⟨3, some 9⟩, ⟨1, some 7⟩]]
        (windowSession [])).1 = [2, 0, 1, 3] ∧
      (pickMany [[⟨2, some 9⟩, ⟨0, some 7⟩], [⟨2, some 9⟩, ⟨0, some 7⟩], [],
          [⟨2, some 9⟩, ⟨1, some 7⟩], [⟨3, some 9⟩, ⟨1, some 7⟩]]
        (windowSession [])).2.recentVerseIndexes =
        (pickMany [[⟨2, some 9⟩, ⟨0, some 7⟩], [⟨2, some 9⟩, ⟨0, some 7⟩], [],
            [⟨2, some 9⟩, ⟨1, some 7⟩], [⟨3, some 9⟩, ⟨1, some 7⟩]]
          (windowSession [])).1.drop
          ((pickMany [[⟨2, some 9⟩, ⟨0, some 7⟩], [⟨2, some 9⟩, ⟨0, some 7⟩], [],
              [⟨2, some 9⟩, ⟨1, some 7⟩], [⟨3, some 9⟩, ⟨1, some 7⟩]]
            (windowSession [])).1.length - 3) :=
  ⟨rfl, by decide,
    (window_holds_last_three (windowSession [])
      [[⟨2, some 9⟩, ⟨0, some 7⟩], [⟨2, some 9⟩, ⟨0, some 7⟩], [],
        [⟨2, some 9⟩, ⟨1, some 7⟩], [⟨3, some 9⟩, ⟨1, some 7⟩]] rfl).2.2⟩

/-- C18: the two anti-repetition states are independent: `resetRandomDeck`
and `drawRandomVerse` leave the recency window as it was, `addToRecent` and
`pickFromRanked` leave the deck as it was; so a fallback reply, taken
because semantic mode is not ready or because the embedder call failed,
does not change the window, and a semantic reply neither changes the deck
nor draws a random number. -/
theorem deck_and_window_are_independent {α : Type} [LinearOrderedRing α] (s : Session α) :
    (∀ rnd : RandomSource,
        (resetRandomDeck s rnd).1.recentVerseIndexes = s.recentVerseIndexes ∧
          (drawRandomVerse s rnd).2.1.recentVerseIndexes = s.recentVerseIndexes) ∧
      (∀ index : Nat, (addToRecent s index).randomDeck = s.randomDeck) ∧
      (∀ ranked : List (Candidate α), (pickFromRanked s ranked).2.randomDeck = s.randomDeck) ∧
      (∀ (promptText : String) (embed : String → EmbedOutcome α) (rnd : RandomSource),
        semanticReady s = false →
        (chooseVerse s promptText embed rnd).2.1.recentVerseIndexes = s.recentVerseIndexes) ∧
      (∀ rnd : RandomSource, (replyCatch s rnd).2.1.recentVerseIndexes = s.recentVerseIndexes) ∧
      (∀ (promptText : String) (embed : String → EmbedOutcome α) (rnd : RandomSource)
          (data : List α),
        semanticReady s = true → embed (buildContext s promptText).1 = some data →
        (chooseVerse s promptText embed rnd).2.1.randomDeck = s.randomDeck ∧
          (chooseVerse s promptText embed rnd).2.2 = rnd) := by
  have hpick : ∀ ranked : List (Candidate α),
      (pickFromRanked s ranked).2.randomDeck = s.randomDeck := by
    intro ranked
    obtain ⟨w, hw⟩ := pickFromRanked_frame s ranked
    rw [hw]
  refine ⟨fun rnd => ⟨rfl, (drawRandomVerse_frame s rnd).2.2.2.2.2⟩, fun _ => rfl, hpick,
    ?_, ?_, ?_⟩
  · intro promptText embed rnd hnot
    rw [chooseVerse_of_not_ready s promptText embed rnd hnot]
    exact (drawRandomVerse_frame s rnd).2.2.2.2.2
  · intro rnd
    exact (drawRandomVerse_frame s rnd).2.2.2.2.2
  · intro promptText embed rnd data hready hdata
    rw [chooseVerse_of_ready s promptText embed rnd hready, hdata]
    obtain ⟨w, hw⟩ := chooseVerseResume_frame s data
    exact ⟨by simp only [hw], rfl⟩

/-- C19: for a corpus of `N ≥ 4` entries, every call of `pickFromRanked` on
a ranking of all `N` indices, made with a window of at most three indices,
as it is in every reachable session, returns an index absent from the
window, so the branch for a ranking that is wholly in the window is not
taken; and the picks of successive calls that start on the empty window
never repeat one of the three picks before them. -/
theorem large_corpus_picks_absent_index {α : Type} [LinearOrderedRing α] (N : Nat)
    (hN : 4 ≤ N) :
    (∀ (s : Session α) (ranked : List (Candidate α)),
        s.recentVerseIndexes.length ≤ 3 →
        (ranked.map fun c => c.index).Perm (List.range N) →
        ∃ c ∈ ranked, c.index ∉ s.recentVerseIndexes ∧
          pickFromRanked s ranked = (.ok c.index, addToRecent s c.index)) ∧
      (∀ (s : Session α) (data : List α),
        Reachable s → semanticReady s = true → s.OPTIONS.length = N →
        ∃ i v, i ∉ s.recentVerseIndexes ∧ s.OPTIONS[i]? = some v ∧
          chooseVerseResume s data = (.ok (some v), addToRecent s i)) ∧
      (∀ (s : Session α) (rankings : List (List (Candidate α))),
        s.recentVerseIndexes = [] →
        (∀ r ∈ rankings, (r.map fun c => c.index).Perm (List.range N)) →
        (pickMany rankings s).1.length = rankings.length ∧
          NoRepeatWithinThree (pickMany rankings s).1) := by
  refine ⟨?_, ?_, ?_⟩
  · intro s ranked hw hr
    exact pickFromRanked_of_exists_absent s ranked
      (exists_absent_candidate ranked _ N hN hr hw)
  · intro s data hs hready hlen
    obtain ⟨_, _, hve⟩ := (semanticReady_iff s).mp hready
    have hperm := rankVerses_index_perm data s.verseEmbeddings
    rw [hve, hlen] at hperm
    obtain ⟨c, hc, hnot, hp⟩ := pickFromRanked_of_exists_absent s _
      (exists_absent_candidate _ _ N hN hperm (reachable_window_le s hs))
    have hi : c.index < s.OPTIONS.length := by
      rw [← hve]
      exact rankVerses_index_lt data _ c hc
    refine ⟨c.index, s.OPTIONS[c.index], hnot, List.getElem?_eq_getElem hi, ?_⟩
    simp only [chooseVerseResume, hp]
    have : (addToRecent s c.index).OPTIONS = s.OPTIONS := rfl
    rw [this, List.getElem?_eq_getElem hi]
  · intro s rankings hw hr
    have h := pickMany_noRepeat N hN rankings s [] hr (by simpa using hw)
      (by intro a b x y _ _ hx; simp at hx)
    simpa using h

theorem large_corpus_picks_absent_index_witness :
    4 ≤ 4 ∧
      (windowSession [2, 0, 1]).recentVerseIndexes.length ≤ 3 ∧
      (([⟨2, some 9⟩, ⟨0, some 7⟩, ⟨3, some 5⟩, ⟨1, some 4⟩] : List (Candidate Int)).map
        fun c => c.index).Perm (List.range 4) ∧
      ∃ c ∈ ([⟨2, some 9⟩, ⟨0, some 7⟩, ⟨3, some 5⟩, ⟨1, some 4⟩] : List (Candidate Int)),
        c.index ∉ (windowSession [2, 0, 1]).recentVerseIndexes ∧
          pickFromRanked (windowSession [2, 0, 1])
              [⟨2, some 9⟩, ⟨0, some 7⟩, ⟨3, some 5⟩, ⟨1, some 4⟩] =
            (.ok c.index, addToRecent (windowSession [2, 0, 1]) c.index) :=
  ⟨by decide, by decide, by decide,
    (large_corpus_picks_absent_index 4 (by decide)).1 (windowSession [2, 0, 1])
      [⟨2, some 9⟩, ⟨0, some 7⟩, ⟨3, some 5⟩, ⟨1, some 4⟩] (by decide) (by decide)⟩

/-- C20: the submit listener adds the user turn before the reply is
produced. For a non-blank message in a session where semantic mode is
ready, the conversation afterwards is the old one followed by the user
turn and the bot turn that holds the reply, and the one text the embedder
is asked about is the query that ends with the line `Utente: <text>` twice,
before which stand the renderings of at most five turns, the last five that
precede the new message: if the embedder fails on that query the reply is
the draw, and if it answers with a vector the reply is the pick ranked by
that vector. -/
theorem query_holds_new_message_twice {α : Type} [LinearOrderedRing α] (s : Session α)
    (inputValue : String) (htext : jsTrim inputValue ≠ "") (hready : semanticReady s = true) :
    (s.conversation.drop (s.conversation.length - 5)).length ≤ 5 ∧
      (∀ (embed : String → EmbedOutcome α) (rnd : RandomSource),
        (∃ verse, (submitHandler s inputValue embed rnd).1 = some verse ∧
          (submitHandler s inputValue embed rnd).2.1.conversation =
            s.conversation ++
              [{ text := some (jsTrim inputValue), sender := "user" },
                { text := verse, sender := "bot" }]) ∧
        submitHandler s inputValue embed rnd =
          submitHandler s inputValue
            (fun _ => embed (expectedQuery s.conversation (jsTrim inputValue))) rnd ∧
        (embed (expectedQuery s.conversation (jsTrim inputValue)) = none →
          (submitHandler s inputValue embed rnd).1 =
              some (drawRandomVerse (addMessage s (some (jsTrim inputValue)) "user")
                rnd.next).1 ∧
            (submitHandler s inputValue embed rnd).2.1.recentVerseIndexes =
              s.recentVerseIndexes) ∧
        (∀ data, embed (expectedQuery s.conversation (jsTrim inputValue)) = some data →
          ∀ verse,
            (chooseVerseResume (addMessage s (some (jsTrim inputValue)) "user") data).1 =
                .ok verse →
            submitHandler s inputValue embed rnd =
              (some verse,
                addMessage
                  (chooseVerseResume (addMessage s (some (jsTrim inputValue)) "user") data).2
                  verse "bot",
                rnd.next))) := by
  have hq := buildContext_after_user_turn s (jsTrim inputValue)
  have hready0 : semanticReady (addMessage s (some (jsTrim inputValue)) "user") = true := hready
  refine ⟨by rw [List.length_drop]; omega, ?_⟩
  intro embed rnd
  have hcases := submitHandler_cases s inputValue embed rnd htext
  simp only [hq] at hcases
  refine ⟨?_, ?_, ?_, ?_⟩
  · have hpick : ∀ data, (chooseVerseResume
        (addMessage s (some (jsTrim inputValue)) "user") data).2.conversation =
        s.conversation ++ [{ text := some (jsTrim inputValue), sender := "user" }] := by
      intro data
      obtain ⟨w, hw⟩ := chooseVerseResume_frame
        (addMessage s (some (jsTrim inputValue)) "user") data
      rw [hw]
      rfl
    have hdraw : ∀ (t : Session α) (r : RandomSource),
        (drawRandomVerse t r).2.1.conversation = t.conversation :=
      fun t r => (drawRandomVerse_frame t r).2.1
    rcases hcases with ⟨_, h⟩ | ⟨_, _, h⟩ | ⟨_, data, _, ⟨verse, _, h⟩ | ⟨e, _, h⟩⟩
    · refine ⟨_, by rw [h], ?_⟩
      rw [h]
      show (drawRandomVerse _ _).2.1.conversation ++ [_] = _
      rw [hdraw]
      simp [addMessage]
    · refine ⟨_, by rw [h], ?_⟩
      rw [h]
      show (drawRandomVerse _ _).2.1.conversation ++ [_] = _
      rw [hdraw]
      simp [addMessage]
    · refine ⟨verse, by rw [h], ?_⟩
      rw [h]
      show (chooseVerseResume _ data).2.conversation ++ [_] = _
      rw [hpick]
      simp
    · refine ⟨_, by rw [h], ?_⟩
      rw [h]
      show (drawRandomVerse _ _).2.1.conversation ++ [_] = _
      rw [hdraw, hpick]
      simp
  · rw [← hq]
    simp only [submitHandler, htext, if_false, reply,
      chooseVerse_of_ready _ _ _ rnd.next hready0]
  · intro hnone
    rcases hcases with ⟨hn, _⟩ | ⟨_, _, h⟩ | ⟨_, data, hd, _⟩
    · rw [hready0] at hn
      cases hn
    · rw [h]
      exact ⟨rfl, (drawRandomVerse_frame _ rnd.next).2.2.2.2.2⟩
    · rw [hnone] at hd
      cases hd
  · intro data hdata verse hverse
    rcases hcases with ⟨hn, _⟩ | ⟨_, hnone, _⟩ | ⟨_, data2, hd, ⟨verse2, hv, h⟩ | ⟨e, he, _⟩⟩
    · rw [hready0] at hn
      cases hn
    · rw [hdata] at hnone
      cases hnone
    · rw [hdata] at hd
      cases hd
      rw [hverse] at hv
      cases hv
      exact h
    · rw [hdata] at hd
      cases hd
      rw [hverse] at he
      cases he

theorem query_holds_new_message_twice_witness :
    jsTrim "ciao" ≠ "" ∧ semanticReady readySession = true ∧
      (submitHandler readySession "ciao" (fun _ => none) halfSource).1 =
        some (drawRandomVerse (addMessage readySession (some (jsTrim "ciao")) "user")
          halfSource.next).1 ∧
      ∀ verse,
        (chooseVerseResume (addMessage readySession (some (jsTrim "ciao")) "user") [1, 1]).1 =
            .ok verse →
        submitHandler readySession "ciao"
            (fun q => if q = "Utente: ciao\nUtente: ciao" then some [1, 1] else none)
            halfSource =
          (some verse,
            addMessage
              (chooseVerseResume (addMessage readySession (some (jsTrim "ciao")) "user")
                [1, 1]).2
              verse "bot",
            halfSource.next) :=
  ⟨by decide, by decide,
    ((query_holds_new_message_twice readySession "ciao" (by decide) (by decide)).2
      (fun _ => none) halfSource).2.2.1 rfl |>.1,
    ((query_holds_new_message_twice readySession "ciao" (by decide) (by decide)).2
      (fun q => if q = "Utente: ciao\nUtente: ciao" then some [1, 1] else none)
      halfSource).2.2.2 [1, 1] (by decide)⟩

/-- C17: `shuffle` is Fisher-Yates: its result is fixed by the swap positions
it draws, the position drawn when the loop variable is `i` being any of
`0..i`; and for a list of pairwise distinct elements every permutation of
the list is the result of exactly one such sequence of swap positions. -/
theorem shuffle_is_bijective_on_choices {β : Type} (array : List β) (h : array.Nodup) :
    (∀ rnd : RandomSource,
        ValidChoices (array.length - 1) (shuffleChoices (array.length - 1) rnd) ∧
          (shuffle array rnd).1 =
            shuffleBy (array.length - 1) (shuffleChoices (array.length - 1) rnd) array) ∧
      (∀ js, ValidChoices (array.length - 1) js →
        (∃ rnd : RandomSource, shuffleChoices (array.length - 1) rnd = js) ∧
          (shuffleBy (array.length - 1) js array).Perm array) ∧
      (∀ l : List β, l.Perm array →
        ∃! js, ValidChoices (array.length - 1) js ∧ shuffleBy (array.length - 1) js array = l) := by
  refine ⟨fun rnd => ⟨shuffleChoices_valid _ rnd, shuffleLoop_eq_shuffleBy _ rnd array⟩,
    fun js hjs => ⟨validChoices_realised _ js hjs, shuffleBy_perm _ js array⟩, ?_⟩
  intro l hl
  cases harr : array with
  | nil =>
    subst harr
    have hl0 : l = [] := List.Perm.eq_nil hl
    subst hl0
    refine ⟨[], ⟨rfl, rfl⟩, ?_⟩
    rintro js ⟨hjs, _⟩
    exact hjs
  | cons x xs =>
    have hi : array.length - 1 < array.length := by
      rw [harr]
      simp
    have hab : ∀ k, array.length - 1 < k → l[k]? = array[k]? := by
      intro k hk
      have hll := hl.length_eq
      rw [List.getElem?_eq_none (by omega), List.getElem?_eq_none (by omega)]
    rw [← harr]
    obtain ⟨js, hjs, hres⟩ := shuffleBy_surjective _ array l h hi hl hab
    refine ⟨js, ⟨hjs, hres⟩, ?_⟩
    rintro js2 ⟨hjs2, hres2⟩
    exact shuffleBy_injective _ js2 js array h hi hjs2 hjs (hres2.trans hres.symm)

theorem shuffle_is_bijective_on_choices_witness :
    ["A", "B", "C"].Nodup ∧
      ((∀ rnd : RandomSource,
          ValidChoices (["A", "B", "C"].length - 1)
              (shuffleChoices (["A", "B", "C"].length - 1) rnd) ∧
            (shuffle ["A", "B", "C"] rnd).1 =
              shuffleBy (["A", "B", "C"].length - 1)
                (shuffleChoices (["A", "B", "C"].length - 1) rnd) ["A", "B", "C"]) ∧
        (∀ js, ValidChoices (["A", "B", "C"].length - 1) js →
          (∃ rnd : RandomSource, shuffleChoices (["A", "B", "C"].length - 1) rnd = js) ∧
            (shuffleBy (["A", "B", "C"].length - 1) js ["A", "B", "C"]).Perm ["A", "B", "C"]) ∧
        (∀ l : List String, l.Perm ["A", "B", "C"] →
          ∃! js, ValidChoices (["A", "B", "C"].length - 1) js ∧
            shuffleBy (["A", "B", "C"].length - 1) js ["A", "B", "C"] = l)) :=
  ⟨by decide, shuffle_is_bijective_on_choices ["A", "B", "C"] (by decide)⟩

end LyricsChat
